import Mathlib

/-!
Shallow embedding of `src/sharedptr.cpp`: a reference-counted smart-pointer
library with two pointer kinds (`SharedPtr`, `WeakPtr`) sharing heap-allocated
control blocks (`BaseControlBlock` with two concrete variants).

The embedding models the program heap as a list of control blocks and the set
of live pointer objects as lists of slots (a slot is a pointer object that is
either alive, holding a nullable control-block reference `cb`, or already
destroyed).  Every public constructor, assignment operator, destructor and
member function of the C++ classes becomes one operation of a step function on
this state; the bodies are direct transcriptions of the C++ member-function
bodies (line numbers of `src/sharedptr.cpp` are cited at each definition).

Machine integers: `shared_count` and `weak_count` are `size_t` in the source
and are modelled as `Nat`.  The only subtraction the source performs is the
`--count` in the two destructors, which is reached only while the pointer being
destroyed is itself counted (so the count is at least 1); on those states
`Nat` subtraction agrees with `size_t` decrement, and all theorems below are
stated over states reachable by the public API, where this holds.
-/

namespace SharedPtrSpec

/-- Values of managed objects.  The claims only compare stored objects for
equality, so a single value type suffices. -/
abbrev Val := Nat

/-- The two concrete control-block variants of `sharedptr.cpp`:
`ControlBlockWithMakeShared` (lines 45-69) embeds the managed object in the
block; `ControlBlockWithoutMakeShared` (lines 16-42) stores a raw pointer
(modelled as a `Nat` address, `0` playing the role of `nullptr`) together with
the deleter it was given (deleters are identified by a `Nat` tag, since the
claims only observe which deleter is invoked on which address). -/
inductive BlockKind where
  | withMake (object : Val) : BlockKind
  | withoutMake (ptr : Nat) (deleterId : Nat) : BlockKind
deriving DecidableEq, Repr

/-- One control block (`BaseControlBlock`, lines 3-14, plus the data of the
concrete variant).  `allocId` is the identity of the allocator stored in the
block's `rebind_alloc` field (allocators are identified by a `Nat` tag, `0`
being a default-constructed allocator; only the identity is observable).
`destroyCalls`, `deallocCalls` and `deleterLog` are instrumentation recording
how often the virtual `destroy()` and `deallocate()` were invoked on this
block and which (deleter, address) invocations `destroy()` performed. -/
structure Block where
  shared_count : Nat
  weak_count : Nat
  kind : BlockKind
  allocId : Nat
  destroyCalls : Nat
  deallocCalls : Nat
  deleterLog : List (Nat × Nat)
deriving DecidableEq, Repr

/-- A pointer object: either already destroyed, or alive holding its `cb`
field (`none` models a null `BaseControlBlock*`, `some i` a pointer to the
block at heap index `i`). -/
inductive Slot where
  | dead : Slot
  | live (cb : Option Nat) : Slot
deriving DecidableEq, Repr

/-- Program state: the heap of control blocks (a block, once allocated, keeps
its index; deallocation is recorded in `deallocCalls`) and the live/destroyed
`SharedPtr` and `WeakPtr` objects. -/
structure State where
  blocks : List Block
  strongs : List Slot
  weaks : List Slot
deriving DecidableEq, Repr

/-- The empty initial state: no blocks, no pointers. -/
def initState : State := ⟨[], [], []⟩

/-- Read a pointer slot; indices outside the list denote objects that never
existed and read as destroyed. -/
def getSlot (l : List Slot) (i : Nat) : Slot := (l[i]?).getD Slot.dead

/-- The `cb` field of a slot (`none` for a destroyed slot as well, which no
operation below ever reads). -/
def slotCbD : Slot → Option Nat
  | Slot.dead => none
  | Slot.live cb => cb

/-- Placeholder block used as the default of total heap accessors. -/
def defBlock : Block := ⟨0, 0, BlockKind.withMake 0, 0, 0, 0, []⟩

/-- Read the heap at index `i` (total, with placeholder default). -/
def blkD (l : List Block) (i : Nat) : Block := (l[i]?).getD defBlock

/-- Number of live strong slots whose `cb` points to block `b`. -/
def strongRefs (s : State) (b : Nat) : Nat :=
  s.strongs.countP (fun sl => decide (sl = Slot.live (some b)))

/-- Number of live weak slots whose `cb` points to block `b`. -/
def weakRefs (s : State) (b : Nat) : Nat :=
  s.weaks.countP (fun sl => decide (sl = Slot.live (some b)))

/-- Virtual `destroy()`.  `ControlBlockWithMakeShared::destroy` (lines 64-66)
destroys the embedded object; `ControlBlockWithoutMakeShared::destroy`
(lines 33-36) invokes the deleter on the stored pointer unless it is null.
Both are recorded in the instrumentation fields. -/
def blockDestroy (b : Block) : Block :=
  match b.kind with
  | BlockKind.withMake _ => { b with destroyCalls := b.destroyCalls + 1 }
  | BlockKind.withoutMake p d =>
      { b with
        destroyCalls := b.destroyCalls + 1,
        deleterLog := if p ≠ 0 then b.deleterLog ++ [(d, p)] else b.deleterLog }

/-- Virtual `deallocate()` (lines 29-31 and 60-62): returns the block's own
memory to the allocator; recorded in the instrumentation field. -/
def blockDeallocate (b : Block) : Block :=
  { b with deallocCalls := b.deallocCalls + 1 }

/-- The private `SharedPtr(BaseControlBlock*)` constructor body (lines 77-81):
if the pointer is non-null, increment its `shared_count`. -/
def incrStrongCb (blocks : List Block) : Option Nat → List Block
  | none => blocks
  | some i =>
      match blocks[i]? with
      | none => blocks
      | some b => blocks.set i { b with shared_count := b.shared_count + 1 }

/-- The private `WeakPtr(BaseControlBlock*)` constructor body (lines 215-219):
if the pointer is non-null, increment its `weak_count`. -/
def incrWeakCb (blocks : List Block) : Option Nat → List Block
  | none => blocks
  | some i =>
      match blocks[i]? with
      | none => blocks
      | some b => blocks.set i { b with weak_count := b.weak_count + 1 }

/-- The `~SharedPtr()` body (lines 182-191) applied to a `cb` value: if
non-null, decrement `shared_count`; if it reached 0, call `destroy()`, and if
`weak_count` is also 0, call `deallocate()`. -/
def releaseStrongCb (blocks : List Block) : Option Nat → List Block
  | none => blocks
  | some i =>
      match blocks[i]? with
      | none => blocks
      | some b =>
          let b1 : Block := { b with shared_count := b.shared_count - 1 }
          if b1.shared_count = 0 then
            let b2 := blockDestroy b1
            if b2.weak_count = 0 then blocks.set i (blockDeallocate b2)
            else blocks.set i b2
          else blocks.set i b1

/-- The `~WeakPtr()` body (lines 292-298) applied to a `cb` value: if
non-null, decrement `weak_count`; if `use_count() + weak_count` is then 0,
call `deallocate()`. -/
def releaseWeakCb (blocks : List Block) : Option Nat → List Block
  | none => blocks
  | some i =>
      match blocks[i]? with
      | none => blocks
      | some b =>
          let b1 : Block := { b with weak_count := b.weak_count - 1 }
          if b1.shared_count + b1.weak_count = 0 then blocks.set i (blockDeallocate b1)
          else blocks.set i b1

/-- Shared-count read through a nullable block pointer, as in
`SharedPtr::use_count` and `WeakPtr::use_count` (lines 155-157, 280-282):
`cb != nullptr ? cb->shared_count : 0`. -/
def cbUseCount (blocks : List Block) : Option Nat → Nat
  | none => 0
  | some i =>
      match blocks[i]? with
      | none => 0
      | some b => b.shared_count

/-- Address of the managed object of the block at heap index `i`:
`ControlBlockWithMakeShared::get` (line 58) returns the address of the
embedded `object` field, modelled as the non-null address `i + 1`;
`ControlBlockWithoutMakeShared::get` (line 38) returns the stored pointer. -/
def blockGet (i : Nat) (b : Block) : Nat :=
  match b.kind with
  | BlockKind.withMake _ => i + 1
  | BlockKind.withoutMake p _ => p

/-- The `SharedPtr::get` body (lines 159-163): null if `cb` is null, else the
block's managed-object address. -/
def cbGet (blocks : List Block) : Option Nat → Nat
  | none => 0
  | some i =>
      match blocks[i]? with
      | none => 0
      | some b => blockGet i b

/-- The value stored at address `a`, when `a` is the embedded object of a
`ControlBlockWithMakeShared` block (those live at addresses `i + 1` for heap
index `i`).  Addresses of externally allocated pointees are outside the
modelled heap. -/
def readAddr (blocks : List Block) (a : Nat) : Option Val :=
  match a with
  | 0 => none
  | k + 1 =>
      match blocks[k]? with
      | some b =>
          match b.kind with
          | BlockKind.withMake v => some v
          | BlockKind.withoutMake _ _ => none
      | none => none

/-- The public operations of the two pointer classes.  Pointer arguments are
slot indices; `v` arguments are the value the managed object's constructor
produces; `p`, `d`, `a` arguments are raw-pointer addresses, deleter tags and
allocator tags. -/
inductive Op where
  | newStrong : Op
  | ptrCtorStrong (p d a : Nat) : Op
  | allocSharedOp (v : Val) (a : Nat) : Op
  | makeSharedOp (v : Val) : Op
  | copyStrong (src : Nat) : Op
  | moveStrong (src : Nat) : Op
  | copyAssignStrong (dst src : Nat) : Op
  | moveAssignStrong (dst src : Nat) : Op
  | resetStrong (i : Nat) : Op
  | resetStrongPtr (i p : Nat) : Op
  | destroyStrong (i : Nat) : Op
  | swapStrong (i j : Nat) : Op
  | newWeak : Op
  | weakFromStrong (src : Nat) : Op
  | copyWeak (src : Nat) : Op
  | moveWeak (src : Nat) : Op
  | copyAssignWeak (dst src : Nat) : Op
  | moveAssignWeak (dst src : Nat) : Op
  | weakAssignFromStrong (dst src : Nat) : Op
  | destroyWeak (i : Nat) : Op
  | lockWeak (w : Nat) : Op
deriving DecidableEq, Repr

/-- One step of the machine.  Each branch is a transcription of the
corresponding C++ member function; operations on slots that are not alive
(destroyed objects) are undefined behaviour in C++ and modelled as no-ops.
The composite bodies (assignments, resets) follow the C++ statement order,
including the temporary-and-swap idiom, so aliasing cases (`dst = src`,
self-assignment) compute exactly what the C++ computes. -/
def step (op : Op) (s : State) : State :=
  match op with
  | Op.newStrong =>
      -- SharedPtr() = default (line 100): cb = nullptr
      { s with strongs := s.strongs ++ [Slot.live none] }
  | Op.ptrCtorStrong p d _a =>
      -- SharedPtr(Y* ptr, Deleter deleter, [[maybe_unused]] Allocator alloc)
      -- (lines 107-116): allocates a ControlBlockWithoutMakeShared(ptr, 1, 0,
      -- deleter, rebind_alloc) where rebind_alloc is the DEFAULT-constructed
      -- local of line 113; the alloc argument is unused, so the recorded
      -- allocator tag is 0, not _a.
      let blk : Block := ⟨1, 0, BlockKind.withoutMake p d, 0, 0, 0, []⟩
      { s with
        blocks := s.blocks ++ [blk],
        strongs := s.strongs ++ [Slot.live (some s.blocks.length)] }
  | Op.allocSharedOp v a =>
      -- allocateShared (lines 200-203) calling SharedPtr(1, 0, alloc, args...)
      -- (lines 83-91): one block of the withMake variant, recording the given
      -- allocator (rebind_alloc = alloc, line 87), object constructed in place.
      let blk : Block := ⟨1, 0, BlockKind.withMake v, a, 0, 0, []⟩
      { s with
        blocks := s.blocks ++ [blk],
        strongs := s.strongs ++ [Slot.live (some s.blocks.length)] }
  | Op.makeSharedOp v =>
      -- makeShared (lines 205-208): allocateShared with std::allocator (tag 0)
      let blk : Block := ⟨1, 0, BlockKind.withMake v, 0, 0, 0, []⟩
      { s with
        blocks := s.blocks ++ [blk],
        strongs := s.strongs ++ [Slot.live (some s.blocks.length)] }
  | Op.copyStrong src =>
      -- SharedPtr(const SharedPtr&) (lines 102-105): delegates to
      -- SharedPtr(other.cb), incrementing shared_count if non-null
      match getSlot s.strongs src with
      | Slot.dead => s
      | Slot.live cb =>
          { s with
            blocks := incrStrongCb s.blocks cb,
            strongs := s.strongs ++ [Slot.live cb] }
  | Op.moveStrong src =>
      -- SharedPtr(SharedPtr<Y>&&) (lines 118-121): steal cb, null the source
      match getSlot s.strongs src with
      | Slot.dead => s
      | Slot.live cb =>
          { s with strongs := (s.strongs.set src (Slot.live none)) ++ [Slot.live cb] }
  | Op.copyAssignStrong dst src =>
      -- operator=(const SharedPtr&) (lines 137-141): tmp = copy of src
      -- (increments), swap(dst, tmp), ~tmp releases dst's old cb
      match getSlot s.strongs src, getSlot s.strongs dst with
      | Slot.live c, Slot.live d =>
          { s with
            blocks := releaseStrongCb (incrStrongCb s.blocks c) d,
            strongs := s.strongs.set dst (Slot.live c) }
      | _, _ => s
  | Op.moveAssignStrong dst src =>
      -- operator=(SharedPtr&&) (lines 123-127): new_ptr = move(src) nulls
      -- src's cb first, then swap(dst, new_ptr), then ~new_ptr releases dst's
      -- old cb (read AFTER src was nulled, which makes self-move a no-op)
      match getSlot s.strongs src, getSlot s.strongs dst with
      | Slot.live c, Slot.live _ =>
          let strongs1 := s.strongs.set src (Slot.live none)
          let dcb := slotCbD (getSlot strongs1 dst)
          { s with
            blocks := releaseStrongCb s.blocks dcb,
            strongs := strongs1.set dst (Slot.live c) }
      | _, _ => s
  | Op.resetStrong i =>
      -- reset() (lines 173-175): *this = SharedPtr(); the empty temporary is
      -- move-assigned in, releasing the old cb and leaving cb = nullptr
      match getSlot s.strongs i with
      | Slot.dead => s
      | Slot.live d =>
          { s with
            blocks := releaseStrongCb s.blocks d,
            strongs := s.strongs.set i (Slot.live none) }
  | Op.resetStrongPtr i p =>
      -- reset(Y* ptr) (lines 177-180): *this = SharedPtr<T>(ptr); a new
      -- external-pointer block (default deleter tag 0, default allocator tag
      -- 0, counts 1/0) is created first, then move-assigned in, releasing the
      -- old cb
      match getSlot s.strongs i with
      | Slot.dead => s
      | Slot.live d =>
          let blk : Block := ⟨1, 0, BlockKind.withoutMake p 0, 0, 0, 0, []⟩
          { s with
            blocks := releaseStrongCb (s.blocks ++ [blk]) d,
            strongs := s.strongs.set i (Slot.live (some s.blocks.length)) }
  | Op.destroyStrong i =>
      -- ~SharedPtr() (lines 182-191)
      match getSlot s.strongs i with
      | Slot.dead => s
      | Slot.live d =>
          { s with
            blocks := releaseStrongCb s.blocks d,
            strongs := s.strongs.set i Slot.dead }
  | Op.swapStrong i j =>
      -- swap (lines 150-153): std::swap of the two cb fields
      match getSlot s.strongs i, getSlot s.strongs j with
      | Slot.live a, Slot.live b =>
          { s with strongs := (s.strongs.set i (Slot.live b)).set j (Slot.live a) }
      | _, _ => s
  | Op.newWeak =>
      -- WeakPtr() = default (line 228)
      { s with weaks := s.weaks ++ [Slot.live none] }
  | Op.weakFromStrong src =>
      -- WeakPtr(const SharedPtr<Y>&) (lines 232-233): delegates to
      -- WeakPtr(other.cb), incrementing weak_count if non-null
      match getSlot s.strongs src with
      | Slot.dead => s
      | Slot.live c =>
          { s with
            blocks := incrWeakCb s.blocks c,
            weaks := s.weaks ++ [Slot.live c] }
  | Op.copyWeak src =>
      -- WeakPtr(const WeakPtr&) (lines 230, 235-236)
      match getSlot s.weaks src with
      | Slot.dead => s
      | Slot.live c =>
          { s with
            blocks := incrWeakCb s.blocks c,
            weaks := s.weaks ++ [Slot.live c] }
  | Op.moveWeak src =>
      -- WeakPtr(WeakPtr&&) (lines 238-240): steal cb, null the source
      match getSlot s.weaks src with
      | Slot.dead => s
      | Slot.live c =>
          { s with weaks := (s.weaks.set src (Slot.live none)) ++ [Slot.live c] }
  | Op.copyAssignWeak dst src =>
      -- operator=(const WeakPtr&) (lines 253-257): tmp = copy of src
      -- (increments weak_count), swap(dst, tmp), ~tmp releases dst's old cb
      match getSlot s.weaks src, getSlot s.weaks dst with
      | Slot.live c, Slot.live d =>
          { s with
            blocks := releaseWeakCb (incrWeakCb s.blocks c) d,
            weaks := s.weaks.set dst (Slot.live c) }
      | _, _ => s
  | Op.moveAssignWeak dst src =>
      -- operator=(WeakPtr&&) (lines 247-251): the body is
      -- WeakPtr new_ptr = other_weak_ptr; swap(new_ptr);
      -- and other_weak_ptr, being a NAMED rvalue reference, is an lvalue, so
      -- line 248 runs the COPY constructor: weak_count is incremented and the
      -- source keeps its cb; then swap(dst, new_ptr) and ~new_ptr releases
      -- dst's old cb.  This is the same computation as copy-assignment.
      match getSlot s.weaks src, getSlot s.weaks dst with
      | Slot.live c, Slot.live d =>
          { s with
            blocks := releaseWeakCb (incrWeakCb s.blocks c) d,
            weaks := s.weaks.set dst (Slot.live c) }
      | _, _ => s
  | Op.weakAssignFromStrong dst src =>
      -- operator=(const SharedPtr<T>&) (lines 259-263): tmp = WeakPtr of the
      -- strong pointer (increments weak_count), swap, ~tmp releases old cb
      match getSlot s.strongs src, getSlot s.weaks dst with
      | Slot.live c, Slot.live d =>
          { s with
            blocks := releaseWeakCb (incrWeakCb s.blocks c) d,
            weaks := s.weaks.set dst (Slot.live c) }
      | _, _ => s
  | Op.destroyWeak i =>
      -- ~WeakPtr() (lines 292-298)
      match getSlot s.weaks i with
      | Slot.dead => s
      | Slot.live d =>
          { s with
            blocks := releaseWeakCb s.blocks d,
            weaks := s.weaks.set i Slot.dead }
  | Op.lockWeak w =>
      -- lock() (lines 288-290): !expired() ? SharedPtr<T>(cb) : SharedPtr<T>()
      -- where expired() is use_count() == 0 (lines 284-286); the non-expired
      -- branch runs the private SharedPtr(BaseControlBlock*) constructor,
      -- incrementing shared_count.
      match getSlot s.weaks w with
      | Slot.dead => s
      | Slot.live c =>
          if cbUseCount s.blocks c ≠ 0 then
            { s with
              blocks := incrStrongCb s.blocks c,
              strongs := s.strongs ++ [Slot.live c] }
          else { s with strongs := s.strongs ++ [Slot.live none] }

/-- Run a list of operations from a state. -/
def run (ops : List Op) (s : State) : State := ops.foldl (fun t op => step op t) s

/-- The `SharedPtr::use_count` body (lines 155-157) for the strong slot `i`. -/
def useCountStrong (s : State) (i : Nat) : Nat :=
  match getSlot s.strongs i with
  | Slot.dead => 0
  | Slot.live cb => cbUseCount s.blocks cb

/-- The `WeakPtr::use_count` body (lines 280-282) for the weak slot `i`. -/
def useCountWeak (s : State) (i : Nat) : Nat :=
  match getSlot s.weaks i with
  | Slot.dead => 0
  | Slot.live cb => cbUseCount s.blocks cb

/-- The `SharedPtr::get` body (lines 159-163) for the strong slot `i`. -/
def getStrong (s : State) (i : Nat) : Nat :=
  match getSlot s.strongs i with
  | Slot.dead => 0
  | Slot.live cb => cbGet s.blocks cb

/-- Net effect of the `~SharedPtr()` body (lines 185-190) on the block it
releases, as a block-to-block function: decrement `shared_count`; on reaching
0 call `destroy()` and, if `weak_count` is 0, `deallocate()`. -/
def releasedStrongBlock (b : Block) : Block :=
  let b1 : Block := { b with shared_count := b.shared_count - 1 }
  if b1.shared_count = 0 then
    let b2 := blockDestroy b1
    if b2.weak_count = 0 then blockDeallocate b2 else b2
  else b1

/-- Net effect of the `~WeakPtr()` body (lines 295-297) on the block it
releases: decrement `weak_count`; if `use_count() + weak_count` is then 0,
call `deallocate()`. -/
def releasedWeakBlock (b : Block) : Block :=
  let b1 : Block := { b with weak_count := b.weak_count - 1 }
  if b1.shared_count + b1.weak_count = 0 then blockDeallocate b1 else b1

/-- Number of live slots in `l` whose `cb` points to block `b`. -/
def refCountL (l : List Slot) (b : Nat) : Nat :=
  l.countP (fun sl => decide (sl = Slot.live (some b)))

/-- Shorthand heap accessors. -/
def scAt (s : State) (b : Nat) : Nat := (blkD s.blocks b).shared_count

/-- Weak count of block `b`. -/
def wcAt (s : State) (b : Nat) : Nat := (blkD s.blocks b).weak_count

/-- Number of `destroy()` calls block `b` has received. -/
def dcAt (s : State) (b : Nat) : Nat := (blkD s.blocks b).destroyCalls

/-- Number of `deallocate()` calls block `b` has received. -/
def dlAt (s : State) (b : Nat) : Nat := (blkD s.blocks b).deallocCalls

/-- The central lifetime invariant of one control block: the stored counts
equal the numbers of live pointers referencing the block; `destroy()` has run
exactly once as soon as (and only when) the shared count is 0 (every block is
born with shared count 1); `deallocate()` has run exactly once as soon as
(and only when) both counts are 0; and the deleter of an external-pointer
block has been invoked exactly on the non-null stored address, exactly when
`destroy()` has run. -/
def BlockOk (blk : Block) (sr wr : Nat) : Prop :=
  blk.shared_count = sr ∧
  blk.weak_count = wr ∧
  blk.destroyCalls = (if blk.shared_count = 0 then 1 else 0) ∧
  blk.deallocCalls
    = (if blk.shared_count = 0 ∧ blk.weak_count = 0 then 1 else 0) ∧
  (∀ p d, blk.kind = BlockKind.withoutMake p d →
      blk.deleterLog = if blk.shared_count = 0 ∧ p ≠ 0 then [(d, p)] else [])

/-- The block at heap index `b` satisfies the lifetime invariant with respect
to the live strong and weak references the slot lists hold on it. -/
def BlockInvL (blocks : List Block) (strongs weaks : List Slot) (b : Nat) : Prop :=
  BlockOk (blkD blocks b) (refCountL strongs b) (refCountL weaks b)

/-- Global invariant over the three state components: every live pointer
references an allocated block, and every allocated block satisfies
`BlockInvL`. -/
def InvL (blocks : List Block) (strongs weaks : List Slot) : Prop :=
  (∀ b, Slot.live (some b) ∈ strongs → b < blocks.length) ∧
  (∀ b, Slot.live (some b) ∈ weaks → b < blocks.length) ∧
  (∀ b, b < blocks.length → BlockInvL blocks strongs weaks b)

/-- Global invariant of a machine state. -/
def Inv (s : State) : Prop := InvL s.blocks s.strongs s.weaks

/-- Models the allocating constructor
`SharedPtr(size_t shared_count, size_t weak_count, Allocator alloc, Args&&...)`
(lines 83-91) together with its exception behaviour.  The body performs, in
order: `AllocTraits::allocate(rebind_alloc, 1)` (line 88), obtaining one
memory chunk; `cb = mem_alloc` (line 89); and
`AllocTraits::construct(rebind_alloc, mem_alloc, ...)` (line 90), which runs
the managed object's constructor — `ctorThrows` says whether that constructor
throws.  There is no try/catch in the body, so on a throw the function exits
by exception with the chunk still allocated.  The result pairs the outcome
(the constructed block, or the propagated exception) with the number of
chunks that were allocated but are neither owned by a returned block nor
returned to the allocator when the call exits. -/
def sharedPtrAllocCtor (sc wc alloc : Nat) (ctorThrows : Bool) (v : Val) :
    Except Unit Block × Nat :=
  if ctorThrows then (Except.error (), 1)
  else (Except.ok ⟨sc, wc, BlockKind.withMake v, alloc, 0, 0, []⟩, 0)

/-- The body of `allocateShared` (lines 200-203): `SharedPtr<Y>(1, 0, alloc,
args...)`. -/
def allocateSharedEx (alloc : Nat) (ctorThrows : Bool) (v : Val) :
    Except Unit Block × Nat :=
  sharedPtrAllocCtor 1 0 alloc ctorThrows v

/-- The body of `makeShared` (lines 205-208): `allocateShared` with a
default `std::allocator` (tag 0). -/
def makeSharedEx (ctorThrows : Bool) (v : Val) : Except Unit Block × Nat :=
  allocateSharedEx 0 ctorThrows v

example :
    run [Op.makeSharedOp 42, Op.copyStrong 0] initState
      = ⟨[⟨2, 0, BlockKind.withMake 42, 0, 0, 0, []⟩],
         [Slot.live (some 0), Slot.live (some 0)], []⟩ := by decide

example :
    run [Op.ptrCtorStrong 5 3 7, Op.destroyStrong 0] initState
      = ⟨[⟨0, 0, BlockKind.withoutMake 5 3, 0, 1, 1, [(3, 5)]⟩],
         [Slot.dead], []⟩ := by decide

example :
    run [Op.makeSharedOp 9, Op.weakFromStrong 0, Op.destroyStrong 0,
         Op.lockWeak 0, Op.destroyWeak 0] initState
      = ⟨[⟨0, 0, BlockKind.withMake 9, 0, 1, 1, []⟩],
         [Slot.dead, Slot.live none], [Slot.dead]⟩ := by decide

/-! Basic list lemmas used throughout. -/

theorem getD_append_lt {α : Type} (l l2 : List α) (d : α) (i : Nat) (h : i < l.length) :
    ((l ++ l2)[i]?).getD d = (l[i]?).getD d := by
  rw [List.getElem?_append_left h]

theorem getD_concat_self {α : Type} (l : List α) (x d : α) :
    ((l ++ [x])[l.length]?).getD d = x := by
  rw [List.getElem?_concat_length]; rfl

theorem getD_set_self {α : Type} (l : List α) (i : Nat) (x d : α) (h : i < l.length) :
    ((l.set i x)[i]?).getD d = x := by
  rw [List.getElem?_set_self h]; rfl

theorem getD_set_ne {α : Type} (l : List α) (i j : Nat) (x d : α) (h : i ≠ j) :
    ((l.set i x)[j]?).getD d = (l[j]?).getD d := by
  rw [List.getElem?_set_ne h]

theorem countP_set_add {α : Type} (p : α → Bool) (l : List α) (i : Nat) (x d : α)
    (h : i < l.length) :
    (l.set i x).countP p + (if p ((l[i]?).getD d) then 1 else 0)
      = l.countP p + (if p x then 1 else 0) := by
  induction l generalizing i with
  | nil => simp at h
  | cons a t ih =>
      cases i with
      | zero => simp [List.countP_cons]; omega
      | succ n =>
          have hn : n < t.length := by simpa using h
          have := ih n hn
          simp only [List.set_cons_succ, List.countP_cons, List.getElem?_cons_succ]
          omega

theorem countP_pos_of_getD {α : Type} (p : α → Bool) (l : List α) (i : Nat) (x d : α)
    (hx : (l[i]?).getD d = x) (hpx : p x = true) (hpd : p d = false) :
    1 ≤ l.countP p := by
  have hi : i < l.length := by
    by_contra hcon
    rw [List.getElem?_eq_none (by omega)] at hx
    simp only [Option.getD_none] at hx
    rw [hx] at hpd
    rw [hpd] at hpx
    exact Bool.noConfusion hpx
  rw [List.getElem?_eq_getElem hi] at hx
  simp only [Option.getD_some] at hx
  have hmem : x ∈ l := hx ▸ List.getElem_mem hi
  have := List.countP_pos_iff.mpr ⟨x, hmem, hpx⟩
  omega

theorem set_getD_self_eq {α : Type} (l : List α) (i : Nat) (x d : α)
    (hx : (l[i]?).getD d = x) (hne : x ≠ d) : l.set i x = l := by
  induction l generalizing i with
  | nil => rfl
  | cons a t ih =>
      cases i with
      | zero =>
          simp only [List.getElem?_cons_zero, Option.getD_some] at hx
          simp [hx]
      | succ n =>
          simp only [List.getElem?_cons_succ] at hx
          simp [ih n hx]

/-! Field lemmas for the block mutators. -/

@[simp] theorem blockDestroy_shared (b : Block) :
    (blockDestroy b).shared_count = b.shared_count := by
  unfold blockDestroy; cases b.kind <;> rfl

@[simp] theorem blockDestroy_weak (b : Block) :
    (blockDestroy b).weak_count = b.weak_count := by
  unfold blockDestroy; cases b.kind <;> rfl

@[simp] theorem blockDestroy_kind (b : Block) :
    (blockDestroy b).kind = b.kind := by
  unfold blockDestroy; cases b.kind <;> rfl

@[simp] theorem blockDestroy_destroyCalls (b : Block) :
    (blockDestroy b).destroyCalls = b.destroyCalls + 1 := by
  unfold blockDestroy; cases b.kind <;> rfl

@[simp] theorem blockDestroy_deallocCalls (b : Block) :
    (blockDestroy b).deallocCalls = b.deallocCalls := by
  unfold blockDestroy; cases b.kind <;> rfl

theorem blockDestroy_log_withMake (b : Block) (v : Val) (h : b.kind = BlockKind.withMake v) :
    (blockDestroy b).deleterLog = b.deleterLog := by
  unfold blockDestroy; rw [h]

theorem blockDestroy_log_without (b : Block) (p d : Nat)
    (h : b.kind = BlockKind.withoutMake p d) :
    (blockDestroy b).deleterLog
      = if p ≠ 0 then b.deleterLog ++ [(d, p)] else b.deleterLog := by
  unfold blockDestroy; rw [h]

@[simp] theorem blockDeallocate_shared (b : Block) :
    (blockDeallocate b).shared_count = b.shared_count := rfl

@[simp] theorem blockDeallocate_weak (b : Block) :
    (blockDeallocate b).weak_count = b.weak_count := rfl

@[simp] theorem blockDeallocate_kind (b : Block) :
    (blockDeallocate b).kind = b.kind := rfl

@[simp] theorem blockDeallocate_destroyCalls (b : Block) :
    (blockDeallocate b).destroyCalls = b.destroyCalls := rfl

@[simp] theorem blockDeallocate_deallocCalls (b : Block) :
    (blockDeallocate b).deallocCalls = b.deallocCalls + 1 := rfl

@[simp] theorem blockDeallocate_log (b : Block) :
    (blockDeallocate b).deleterLog = b.deleterLog := rfl

/-! Effect lemmas for the count mutators on the heap. -/

theorem length_incrStrongCb (blocks : List Block) (cb : Option Nat) :
    (incrStrongCb blocks cb).length = blocks.length := by
  cases cb with
  | none => rfl
  | some j =>
      simp only [incrStrongCb]
      cases h : blocks[j]? with
      | none => rfl
      | some b => simp

theorem length_incrWeakCb (blocks : List Block) (cb : Option Nat) :
    (incrWeakCb blocks cb).length = blocks.length := by
  cases cb with
  | none => rfl
  | some j =>
      simp only [incrWeakCb]
      cases h : blocks[j]? with
      | none => rfl
      | some b => simp

theorem length_releaseStrongCb (blocks : List Block) (cb : Option Nat) :
    (releaseStrongCb blocks cb).length = blocks.length := by
  cases cb with
  | none => rfl
  | some j =>
      simp only [releaseStrongCb]
      cases h : blocks[j]? with
      | none => rfl
      | some b => dsimp only; split_ifs <;> simp

theorem length_releaseWeakCb (blocks : List Block) (cb : Option Nat) :
    (releaseWeakCb blocks cb).length = blocks.length := by
  cases cb with
  | none => rfl
  | some j =>
      simp only [releaseWeakCb]
      cases h : blocks[j]? with
      | none => rfl
      | some b => dsimp only; split_ifs <;> simp

theorem incrStrongCb_none (blocks : List Block) : incrStrongCb blocks none = blocks := rfl

theorem incrWeakCb_none (blocks : List Block) : incrWeakCb blocks none = blocks := rfl

theorem releaseStrongCb_none (blocks : List Block) : releaseStrongCb blocks none = blocks := rfl

theorem releaseWeakCb_none (blocks : List Block) : releaseWeakCb blocks none = blocks := rfl

theorem blkD_eq_getElem (blocks : List Block) (j : Nat) (h : j < blocks.length) :
    blkD blocks j = blocks[j] := by
  rw [blkD, List.getElem?_eq_getElem h]; rfl

theorem incrStrongCb_some (blocks : List Block) (j : Nat) (h : j < blocks.length) :
    incrStrongCb blocks (some j)
      = blocks.set j
          { blkD blocks j with shared_count := (blkD blocks j).shared_count + 1 } := by
  rw [blkD_eq_getElem blocks j h]
  simp only [incrStrongCb, List.getElem?_eq_getElem h]

theorem incrWeakCb_some (blocks : List Block) (j : Nat) (h : j < blocks.length) :
    incrWeakCb blocks (some j)
      = blocks.set j
          { blkD blocks j with weak_count := (blkD blocks j).weak_count + 1 } := by
  rw [blkD_eq_getElem blocks j h]
  simp only [incrWeakCb, List.getElem?_eq_getElem h]

theorem releaseStrongCb_some (blocks : List Block) (j : Nat) (h : j < blocks.length) :
    releaseStrongCb blocks (some j)
      = blocks.set j (releasedStrongBlock (blkD blocks j)) := by
  rw [blkD_eq_getElem blocks j h]
  simp only [releaseStrongCb, List.getElem?_eq_getElem h, releasedStrongBlock]
  split_ifs <;> rfl

theorem releaseWeakCb_some (blocks : List Block) (j : Nat) (h : j < blocks.length) :
    releaseWeakCb blocks (some j)
      = blocks.set j (releasedWeakBlock (blkD blocks j)) := by
  rw [blkD_eq_getElem blocks j h]
  simp only [releaseWeakCb, List.getElem?_eq_getElem h, releasedWeakBlock]
  split_ifs <;> rfl

/-! Field lemmas for the net block transforms. -/

theorem releasedStrongBlock_sc (b : Block) :
    (releasedStrongBlock b).shared_count = b.shared_count - 1 := by
  unfold releasedStrongBlock; dsimp only; split_ifs <;> simp

theorem releasedStrongBlock_wc (b : Block) :
    (releasedStrongBlock b).weak_count = b.weak_count := by
  unfold releasedStrongBlock; dsimp only; split_ifs <;> simp

theorem releasedStrongBlock_kind (b : Block) :
    (releasedStrongBlock b).kind = b.kind := by
  unfold releasedStrongBlock; dsimp only; split_ifs <;> simp

theorem releasedStrongBlock_dc (b : Block) :
    (releasedStrongBlock b).destroyCalls
      = b.destroyCalls + (if b.shared_count - 1 = 0 then 1 else 0) := by
  unfold releasedStrongBlock; dsimp only; split_ifs <;> simp_all

theorem releasedStrongBlock_dl (b : Block) :
    (releasedStrongBlock b).deallocCalls
      = b.deallocCalls
          + (if b.shared_count - 1 = 0 ∧ b.weak_count = 0 then 1 else 0) := by
  unfold releasedStrongBlock; dsimp only
  split_ifs with h1 h2 <;> simp_all

theorem releasedStrongBlock_log_withMake (b : Block) (v : Val)
    (h : b.kind = BlockKind.withMake v) :
    (releasedStrongBlock b).deleterLog = b.deleterLog := by
  unfold releasedStrongBlock; dsimp only
  split_ifs <;> simp_all [blockDestroy]

theorem releasedStrongBlock_log_without (b : Block) (p d : Nat)
    (h : b.kind = BlockKind.withoutMake p d) :
    (releasedStrongBlock b).deleterLog
      = if b.shared_count - 1 = 0 ∧ p ≠ 0 then b.deleterLog ++ [(d, p)]
        else b.deleterLog := by
  unfold releasedStrongBlock; dsimp only
  split_ifs with h1 h2 <;> simp_all [blockDestroy]

theorem releasedWeakBlock_sc (b : Block) :
    (releasedWeakBlock b).shared_count = b.shared_count := by
  unfold releasedWeakBlock; dsimp only; split_ifs <;> simp

theorem releasedWeakBlock_wc (b : Block) :
    (releasedWeakBlock b).weak_count = b.weak_count - 1 := by
  unfold releasedWeakBlock; dsimp only; split_ifs <;> simp

theorem releasedWeakBlock_kind (b : Block) :
    (releasedWeakBlock b).kind = b.kind := by
  unfold releasedWeakBlock; dsimp only; split_ifs <;> simp

theorem releasedWeakBlock_dc (b : Block) :
    (releasedWeakBlock b).destroyCalls = b.destroyCalls := by
  unfold releasedWeakBlock; dsimp only; split_ifs <;> simp

theorem releasedWeakBlock_dl (b : Block) :
    (releasedWeakBlock b).deallocCalls
      = b.deallocCalls
          + (if b.shared_count + (b.weak_count - 1) = 0 then 1 else 0) := by
  unfold releasedWeakBlock; dsimp only; split_ifs <;> simp_all

theorem releasedWeakBlock_log (b : Block) :
    (releasedWeakBlock b).deleterLog = b.deleterLog := by
  unfold releasedWeakBlock; dsimp only; split_ifs <;> simp

/-! Reference counting over slot lists. -/

theorem strongRefs_eq (s : State) (b : Nat) : strongRefs s b = refCountL s.strongs b := rfl

theorem weakRefs_eq (s : State) (b : Nat) : weakRefs s b = refCountL s.weaks b := rfl

theorem refCountL_append_single (l : List Slot) (x : Slot) (b : Nat) :
    refCountL (l ++ [x]) b = refCountL l b + (if x = Slot.live (some b) then 1 else 0) := by
  unfold refCountL
  rw [List.countP_append]
  simp [List.countP_cons]

theorem refCountL_set_add (l : List Slot) (i : Nat) (x : Slot) (b : Nat)
    (h : i < l.length) :
    refCountL (l.set i x) b + (if getSlot l i = Slot.live (some b) then 1 else 0)
      = refCountL l b + (if x = Slot.live (some b) then 1 else 0) := by
  have := countP_set_add (fun sl => decide (sl = Slot.live (some b))) l i x Slot.dead h
  unfold refCountL getSlot
  simpa using this

theorem refCountL_pos (l : List Slot) (i b : Nat)
    (h : getSlot l i = Slot.live (some b)) : 1 ≤ refCountL l b := by
  exact countP_pos_of_getD (fun sl => decide (sl = Slot.live (some b))) l i
    (Slot.live (some b)) Slot.dead (by simpa [getSlot] using h) (by simp) (by simp)

/-! Slot and heap access lemmas. -/

theorem mem_of_getSlot (l : List Slot) (i : Nat) (sl : Slot)
    (h : getSlot l i = sl) (hne : sl ≠ Slot.dead) : sl ∈ l := by
  cases hij : l[i]? with
  | none =>
      rw [getSlot, hij] at h
      exact absurd h.symm hne
  | some x =>
      rw [getSlot, hij] at h
      simp only [Option.getD_some] at h
      exact h ▸ List.getElem?_mem hij

theorem getSlot_lt_length (l : List Slot) (i : Nat) (cb : Option Nat)
    (h : getSlot l i = Slot.live cb) : i < l.length := by
  by_contra hcon
  rw [getSlot, List.getElem?_eq_none (by omega)] at h
  exact Slot.noConfusion h

theorem blkD_set_self (blocks : List Block) (j : Nat) (blk : Block)
    (h : j < blocks.length) : blkD (blocks.set j blk) j = blk :=
  getD_set_self blocks j blk defBlock h

theorem blkD_set_ne (blocks : List Block) (j b : Nat) (blk : Block)
    (h : j ≠ b) : blkD (blocks.set j blk) b = blkD blocks b :=
  getD_set_ne blocks j b blk defBlock h

theorem blkD_append_lt (blocks l2 : List Block) (b : Nat) (h : b < blocks.length) :
    blkD (blocks ++ l2) b = blkD blocks b :=
  getD_append_lt blocks l2 defBlock b h

theorem blkD_append_self (blocks : List Block) (blk : Block) :
    blkD (blocks ++ [blk]) blocks.length = blk :=
  getD_concat_self blocks blk defBlock

theorem refCountL_zero_of_valid (l : List Slot) (n : Nat)
    (h : ∀ b, Slot.live (some b) ∈ l → b < n) : refCountL l n = 0 := by
  rw [refCountL, List.countP_eq_zero]
  intro sl hsl
  simp only [decide_eq_true_eq]
  intro heq
  exact absurd (h n (heq ▸ hsl)) (by omega)

/-- From the invariant: a live strong slot referencing `j` forces `j` to be a
valid block with positive shared count. -/
theorem strong_slot_facts (blocks : List Block) (strongs weaks : List Slot)
    (hInv : InvL blocks strongs weaks) (i j : Nat)
    (h : getSlot strongs i = Slot.live (some j)) :
    j < blocks.length ∧ 1 ≤ (blkD blocks j).shared_count := by
  obtain ⟨hvs, _, hblk⟩ := hInv
  have hjlen : j < blocks.length :=
    hvs j (mem_of_getSlot strongs i _ h (by simp))
  have hpos : 1 ≤ refCountL strongs j := refCountL_pos strongs i j h
  have hc := (hblk j hjlen).1
  exact ⟨hjlen, by omega⟩

/-- From the invariant: a live weak slot referencing `j` forces `j` to be a
valid block with positive weak count. -/
theorem weak_slot_facts (blocks : List Block) (strongs weaks : List Slot)
    (hInv : InvL blocks strongs weaks) (i j : Nat)
    (h : getSlot weaks i = Slot.live (some j)) :
    j < blocks.length ∧ 1 ≤ (blkD blocks j).weak_count := by
  obtain ⟨_, hvw, hblk⟩ := hInv
  have hjlen : j < blocks.length :=
    hvw j (mem_of_getSlot weaks i _ h (by simp))
  have hpos : 1 ≤ refCountL weaks j := refCountL_pos weaks i j h
  have hc := (hblk j hjlen).2.1
  exact ⟨hjlen, by omega⟩

/-! Algebra of `BlockOk` under the block transforms. -/

theorem blockOk_congr (blk : Block) (sr wr sr' wr' : Nat) (h : BlockOk blk sr wr)
    (hs : sr = sr') (hw : wr = wr') : BlockOk blk sr' wr' := hs ▸ hw ▸ h

theorem blockOk_new (kind : BlockKind) (aid : Nat) :
    BlockOk ⟨1, 0, kind, aid, 0, 0, []⟩ 1 0 := by
  refine ⟨rfl, rfl, by simp, by simp, ?_⟩
  intro p d _
  simp

theorem blockOk_incrStrong (blk : Block) (sr wr : Nat) (h : BlockOk blk sr wr)
    (hsr : 1 ≤ sr) :
    BlockOk { blk with shared_count := blk.shared_count + 1 } (sr + 1) wr := by
  obtain ⟨h1, h2, h3, h4, h5⟩ := h
  have h0 : ¬(blk.shared_count = 0) := by omega
  have h0' : ¬(blk.shared_count + 1 = 0) := by omega
  refine ⟨by simp [h1], h2, by simp [h3, h0, h0'], by simp [h4, h0, h0'], ?_⟩
  intro p d hk
  simp only at hk
  have := h5 p d hk
  simp [h0] at this
  simp [h0', this]

theorem blockOk_incrWeak (blk : Block) (sr wr : Nat) (h : BlockOk blk sr wr)
    (hok : 1 ≤ sr ∨ 1 ≤ wr) :
    BlockOk { blk with weak_count := blk.weak_count + 1 } sr (wr + 1) := by
  obtain ⟨h1, h2, h3, h4, h5⟩ := h
  have h0 : ¬(blk.shared_count = 0 ∧ blk.weak_count = 0) := by omega
  have h0' : ¬(blk.weak_count + 1 = 0) := by omega
  refine ⟨h1, by simp [h2], by simp [h3], ?_, ?_⟩
  · simp only
    rw [h4, if_neg h0, if_neg (by simp [h0'] : ¬(blk.shared_count = 0 ∧ blk.weak_count + 1 = 0))]
  · intro p d hk
    simp only at hk ⊢
    exact h5 p d hk

theorem blockOk_releaseStrong (blk : Block) (sr wr : Nat) (h : BlockOk blk sr wr)
    (hsr : 1 ≤ sr) :
    BlockOk (releasedStrongBlock blk) (sr - 1) wr := by
  obtain ⟨h1, h2, h3, h4, h5⟩ := h
  have h0 : ¬(blk.shared_count = 0) := by omega
  refine ⟨?_, ?_, ?_, ?_, ?_⟩
  · rw [releasedStrongBlock_sc, h1]
  · rw [releasedStrongBlock_wc, h2]
  · rw [releasedStrongBlock_dc, releasedStrongBlock_sc, h3]
    split_ifs <;> omega
  · rw [releasedStrongBlock_dl, releasedStrongBlock_sc, releasedStrongBlock_wc, h4]
    split_ifs <;> simp_all
  · intro p d hk
    rw [releasedStrongBlock_kind] at hk
    rw [releasedStrongBlock_log_without blk p d hk, releasedStrongBlock_sc]
    have := h5 p d hk
    rw [if_neg (by simp [h0])] at this
    rw [this]
    split_ifs <;> simp_all

theorem blockOk_releaseWeak (blk : Block) (sr wr : Nat) (h : BlockOk blk sr wr)
    (hwr : 1 ≤ wr) :
    BlockOk (releasedWeakBlock blk) sr (wr - 1) := by
  obtain ⟨h1, h2, h3, h4, h5⟩ := h
  have h0 : ¬(blk.weak_count = 0) := by omega
  refine ⟨?_, ?_, ?_, ?_, ?_⟩
  · rw [releasedWeakBlock_sc, h1]
  · rw [releasedWeakBlock_wc, h2]
  · rw [releasedWeakBlock_dc, releasedWeakBlock_sc, h3]
  · rw [releasedWeakBlock_dl, releasedWeakBlock_sc, releasedWeakBlock_wc, h4]
    split_ifs <;> simp_all <;> omega
  · intro p d hk
    rw [releasedWeakBlock_kind] at hk
    rw [releasedWeakBlock_log, releasedWeakBlock_sc]
    exact h5 p d hk

theorem blockOk_incrReleaseStrong (blk : Block) (sr wr : Nat) (h : BlockOk blk sr wr)
    (hsr : 1 ≤ sr) :
    BlockOk (releasedStrongBlock { blk with shared_count := blk.shared_count + 1 })
      sr wr := by
  have := blockOk_releaseStrong _ _ _ (blockOk_incrStrong blk sr wr h hsr) (by omega)
  exact blockOk_congr _ _ _ _ _ this (by omega) rfl

/-! Slot access wrappers. -/

theorem getSlot_set_self (l : List Slot) (i : Nat) (x : Slot) (h : i < l.length) :
    getSlot (l.set i x) i = x := getD_set_self l i x Slot.dead h

theorem getSlot_set_ne (l : List Slot) (i j : Nat) (x : Slot) (h : i ≠ j) :
    getSlot (l.set i x) j = getSlot l j := getD_set_ne l i j x Slot.dead h

theorem getSlot_append_lt (l l2 : List Slot) (i : Nat) (h : i < l.length) :
    getSlot (l ++ l2) i = getSlot l i := getD_append_lt l l2 Slot.dead i h

theorem getSlot_concat_self (l : List Slot) (x : Slot) :
    getSlot (l ++ [x]) l.length = x := getD_concat_self l x Slot.dead

/-! Invariant preservation, one lemma per operation shape. -/

/-- Creating a strong pointer that attaches to an existing non-dead block
(copy construction, `lock()` on a non-expired block): the new slot is
appended and the block's shared count incremented. -/
theorem invL_pushStrong (blocks : List Block) (strongs weaks : List Slot)
    (cb : Option Nat) (hInv : InvL blocks strongs weaks)
    (hcb : ∀ j, cb = some j → j < blocks.length ∧ 1 ≤ (blkD blocks j).shared_count) :
    InvL (incrStrongCb blocks cb) (strongs ++ [Slot.live cb]) weaks := by
  obtain ⟨hvs, hvw, hblk⟩ := hInv
  cases cb with
  | none =>
      rw [incrStrongCb_none]
      refine ⟨?_, hvw, ?_⟩
      · intro b hb
        rcases List.mem_append.mp hb with hb | hb
        · exact hvs b hb
        · simp at hb
      · intro b hb
        obtain ⟨h1, h2, h3, h4, h5⟩ := hblk b hb
        refine ⟨?_, h2, h3, h4, h5⟩
        rw [refCountL_append_single, h1]
        simp
  | some j =>
      obtain ⟨hjlen, hjsc⟩ := hcb j rfl
      rw [incrStrongCb_some blocks j hjlen]
      refine ⟨?_, ?_, ?_⟩
      · intro b hb
        rw [List.length_set]
        rcases List.mem_append.mp hb with hb | hb
        · exact hvs b hb
        · simp at hb
          subst hb
          exact hjlen
      · intro b hb
        rw [List.length_set]
        exact hvw b hb
      · intro b hb
        rw [List.length_set] at hb
        obtain ⟨h1, h2, h3, h4, h5⟩ := hblk b hb
        unfold BlockInvL
        by_cases hbj : b = j
        · subst hbj
          rw [blkD_set_self _ _ _ hb]
          refine ⟨?_, ?_, ?_, ?_, ?_⟩
          · rw [refCountL_append_single, h1]
            simp
          · exact h2
          · simp only
            rw [h3]
            have h0 : ¬((blkD blocks b).shared_count = 0) := by omega
            have h0' : ¬((blkD blocks b).shared_count + 1 = 0) := by omega
            simp [h0, h0']
          · simp only
            rw [h4]
            have h0 : ¬((blkD blocks b).shared_count = 0) := by omega
            have h0' : ¬((blkD blocks b).shared_count + 1 = 0) := by omega
            simp [h0, h0']
          · intro p d hk
            simp only at hk ⊢
            have := h5 p d hk
            have h0 : ¬((blkD blocks b).shared_count = 0) := by omega
            have h0' : ¬((blkD blocks b).shared_count + 1 = 0) := by omega
            simp [h0] at this
            simp [h0', this]
        · rw [blkD_set_ne _ _ _ _ (fun hc => hbj hc.symm)]
          refine ⟨?_, h2, h3, h4, h5⟩
          rw [refCountL_append_single, h1]
          have : ¬(Slot.live (some j) = Slot.live (some b)) := by
            simp; omega
          simp [this]

/-- Creating a weak pointer that attaches to an existing block holding at
least one live reference of either kind (construction from a strong pointer
or copy of a weak pointer): the new slot is appended and the block's weak
count incremented. -/
theorem invL_pushWeak (blocks : List Block) (strongs weaks : List Slot)
    (cb : Option Nat) (hInv : InvL blocks strongs weaks)
    (hcb : ∀ j, cb = some j → j < blocks.length ∧
        (1 ≤ (blkD blocks j).shared_count ∨ 1 ≤ (blkD blocks j).weak_count)) :
    InvL (incrWeakCb blocks cb) strongs (weaks ++ [Slot.live cb]) := by
  obtain ⟨hvs, hvw, hblk⟩ := hInv
  cases cb with
  | none =>
      rw [incrWeakCb_none]
      refine ⟨hvs, ?_, ?_⟩
      · intro b hb
        rcases List.mem_append.mp hb with hb | hb
        · exact hvw b hb
        · simp at hb
      · intro b hb
        have h := hblk b hb
        unfold BlockInvL at h ⊢
        refine blockOk_congr _ _ _ _ _ h rfl ?_
        rw [refCountL_append_single]
        simp
  | some j =>
      obtain ⟨hjlen, hjok⟩ := hcb j rfl
      rw [incrWeakCb_some blocks j hjlen]
      refine ⟨?_, ?_, ?_⟩
      · intro b hb
        rw [List.length_set]
        exact hvs b hb
      · intro b hb
        rw [List.length_set]
        rcases List.mem_append.mp hb with hb | hb
        · exact hvw b hb
        · simp at hb
          subst hb
          exact hjlen
      · intro b hb
        rw [List.length_set] at hb
        have h := hblk b hb
        unfold BlockInvL at h ⊢
        by_cases hbj : b = j
        · subst hbj
          rw [blkD_set_self _ _ _ hb]
          have hw : refCountL (weaks ++ [Slot.live (some b)]) b
              = refCountL weaks b + 1 := by
            rw [refCountL_append_single]; simp
          rw [hw]
          refine blockOk_incrWeak _ _ _ h ?_
          have h1 := h.1
          have h2 := h.2.1
          omega
        · rw [blkD_set_ne _ _ _ _ (fun hc => hbj hc.symm)]
          have hw : refCountL (weaks ++ [Slot.live (some j)]) b
              = refCountL weaks b := by
            rw [refCountL_append_single]
            have : ¬(Slot.live (some j) = Slot.live (some b)) := by simp; omega
            simp [this]
          rw [hw]
          exact h

/-- Creating a fresh block with one strong owner (`makeShared`,
`allocateShared`, the raw-pointer constructor, `reset(ptr)`): the block is
appended with counts 1 and 0 and a strong slot referencing it is appended. -/
theorem invL_create (blocks : List Block) (strongs weaks : List Slot)
    (kind : BlockKind) (aid : Nat) (hInv : InvL blocks strongs weaks) :
    InvL (blocks ++ [⟨1, 0, kind, aid, 0, 0, []⟩])
         (strongs ++ [Slot.live (some blocks.length)]) weaks := by
  obtain ⟨hvs, hvw, hblk⟩ := hInv
  refine ⟨?_, ?_, ?_⟩
  · intro b hb
    rw [List.length_append]
    rcases List.mem_append.mp hb with hb | hb
    · have := hvs b hb
      simp only [List.length_singleton]
      omega
    · simp at hb
      subst hb
      simp
  · intro b hb
    rw [List.length_append]
    have := hvw b hb
    simp only [List.length_singleton]
    omega
  · intro b hb
    rw [List.length_append, List.length_singleton] at hb
    unfold BlockInvL
    by_cases hbl : b = blocks.length
    · subst hbl
      rw [blkD_append_self]
      have hs : refCountL (strongs ++ [Slot.live (some blocks.length)]) blocks.length
          = 1 := by
        rw [refCountL_append_single, refCountL_zero_of_valid strongs blocks.length hvs]
        simp
      have hw : refCountL weaks blocks.length = 0 :=
        refCountL_zero_of_valid weaks _ hvw
      rw [hs, hw]
      exact blockOk_new kind aid
    · have hlt : b < blocks.length := by omega
      rw [blkD_append_lt _ _ _ hlt]
      have h := hblk b hlt
      unfold BlockInvL at h
      have hs : refCountL (strongs ++ [Slot.live (some blocks.length)]) b
          = refCountL strongs b := by
        rw [refCountL_append_single]
        have : ¬(Slot.live (some blocks.length) = Slot.live (some b)) := by simp; omega
        simp [this]
      rw [hs]
      exact h

/-- Releasing a strong reference and replacing the releasing slot by a dead
or empty slot (`~SharedPtr`, `reset()`). -/
theorem invL_dropStrong (blocks : List Block) (strongs weaks : List Slot)
    (i : Nat) (d : Option Nat) (x : Slot) (hInv : InvL blocks strongs weaks)
    (hslot : getSlot strongs i = Slot.live d)
    (hx : x = Slot.dead ∨ x = Slot.live none) :
    InvL (releaseStrongCb blocks d) (strongs.set i x) weaks := by
  obtain ⟨hvs, hvw, hblk⟩ := hInv
  have hilen : i < strongs.length := getSlot_lt_length _ _ _ hslot
  have hxne : ∀ b : Nat, ¬(x = Slot.live (some b)) := by
    intro b
    rcases hx with hx | hx <;> simp [hx]
  have hvs' : ∀ b, Slot.live (some b) ∈ strongs.set i x → b < blocks.length := by
    intro b hb
    rcases List.mem_or_eq_of_mem_set hb with hb | hb
    · exact hvs b hb
    · exact absurd hb.symm (hxne b)
  cases d with
  | none =>
      rw [releaseStrongCb_none]
      refine ⟨hvs', hvw, ?_⟩
      intro b hb
      have h := hblk b hb
      unfold BlockInvL at h ⊢
      have hadd := refCountL_set_add strongs i x b hilen
      rw [hslot] at hadd
      have hs : refCountL (strongs.set i x) b = refCountL strongs b := by
        simp [hxne b] at hadd
        exact hadd
      rw [hs]
      exact h
  | some j =>
      obtain ⟨hjlen, hjsc⟩ :=
        strong_slot_facts blocks strongs weaks ⟨hvs, hvw, hblk⟩ i j hslot
      have hjref : 1 ≤ refCountL strongs j := refCountL_pos strongs i j hslot
      rw [releaseStrongCb_some blocks j hjlen]
      refine ⟨?_, ?_, ?_⟩
      · intro b hb
        rw [List.length_set]
        exact hvs' b hb
      · intro b hb
        rw [List.length_set]
        exact hvw b hb
      · intro b hb
        rw [List.length_set] at hb
        have h := hblk b hb
        unfold BlockInvL at h ⊢
        have hadd := refCountL_set_add strongs i x b hilen
        rw [hslot] at hadd
        by_cases hbj : b = j
        · subst hbj
          rw [blkD_set_self _ _ _ hb]
          simp [hxne b] at hadd
          have hs : refCountL (strongs.set i x) b = refCountL strongs b - 1 := by omega
          rw [hs]
          exact blockOk_releaseStrong _ _ _ h hjref
        · rw [blkD_set_ne _ _ _ _ (fun hc => hbj hc.symm)]
          have hnb : ¬(Slot.live (some j) = Slot.live (some b)) := by simp; omega
          simp [hnb, hxne b] at hadd
          rw [hadd]
          exact h

/-- Releasing a weak reference and replacing the releasing slot by a dead or
empty slot (`~WeakPtr`). -/
theorem invL_dropWeak (blocks : List Block) (strongs weaks : List Slot)
    (i : Nat) (d : Option Nat) (x : Slot) (hInv : InvL blocks strongs weaks)
    (hslot : getSlot weaks i = Slot.live d)
    (hx : x = Slot.dead ∨ x = Slot.live none) :
    InvL (releaseWeakCb blocks d) strongs (weaks.set i x) := by
  obtain ⟨hvs, hvw, hblk⟩ := hInv
  have hilen : i < weaks.length := getSlot_lt_length _ _ _ hslot
  have hxne : ∀ b : Nat, ¬(x = Slot.live (some b)) := by
    intro b
    rcases hx with hx | hx <;> simp [hx]
  have hvw' : ∀ b, Slot.live (some b) ∈ weaks.set i x → b < blocks.length := by
    intro b hb
    rcases List.mem_or_eq_of_mem_set hb with hb | hb
    · exact hvw b hb
    · exact absurd hb.symm (hxne b)
  cases d with
  | none =>
      rw [releaseWeakCb_none]
      refine ⟨hvs, hvw', ?_⟩
      intro b hb
      have h := hblk b hb
      unfold BlockInvL at h ⊢
      have hadd := refCountL_set_add weaks i x b hilen
      rw [hslot] at hadd
      have hs : refCountL (weaks.set i x) b = refCountL weaks b := by
        simp [hxne b] at hadd
        exact hadd
      rw [hs]
      exact h
  | some j =>
      obtain ⟨hjlen, hjwc⟩ :=
        weak_slot_facts blocks strongs weaks ⟨hvs, hvw, hblk⟩ i j hslot
      have hjref : 1 ≤ refCountL weaks j := refCountL_pos weaks i j hslot
      rw [releaseWeakCb_some blocks j hjlen]
      refine ⟨?_, ?_, ?_⟩
      · intro b hb
        rw [List.length_set]
        exact hvs b hb
      · intro b hb
        rw [List.length_set]
        exact hvw' b hb
      · intro b hb
        rw [List.length_set] at hb
        have h := hblk b hb
        unfold BlockInvL at h ⊢
        have hadd := refCountL_set_add weaks i x b hilen
        rw [hslot] at hadd
        by_cases hbj : b = j
        · subst hbj
          rw [blkD_set_self _ _ _ hb]
          simp [hxne b] at hadd
          have hs : refCountL (weaks.set i x) b = refCountL weaks b - 1 := by omega
          rw [hs]
          exact blockOk_releaseWeak _ _ _ h hjref
        · rw [blkD_set_ne _ _ _ _ (fun hc => hbj hc.symm)]
          have hnb : ¬(Slot.live (some j) = Slot.live (some b)) := by simp; omega
          simp [hnb, hxne b] at hadd
          rw [hadd]
          exact h

/-- Move-constructing a strong pointer: the source slot is emptied and a new
slot holding its old reference is appended; no count changes. -/
theorem invL_moveStrongCtor (blocks : List Block) (strongs weaks : List Slot)
    (src : Nat) (cb : Option Nat) (hInv : InvL blocks strongs weaks)
    (hslot : getSlot strongs src = Slot.live cb) :
    InvL blocks ((strongs.set src (Slot.live none)) ++ [Slot.live cb]) weaks := by
  obtain ⟨hvs, hvw, hblk⟩ := hInv
  have hsrclen : src < strongs.length := getSlot_lt_length _ _ _ hslot
  refine ⟨?_, hvw, ?_⟩
  · intro b hb
    rcases List.mem_append.mp hb with hb | hb
    · rcases List.mem_or_eq_of_mem_set hb with hb | hb
      · exact hvs b hb
      · simp at hb
    · simp at hb
      rw [← hb] at hslot
      exact hvs b (mem_of_getSlot strongs src _ hslot (by simp))
  · intro b hb
    have h := hblk b hb
    unfold BlockInvL at h ⊢
    have hadd := refCountL_set_add strongs src (Slot.live none) b hsrclen
    rw [hslot] at hadd
    have hs : refCountL ((strongs.set src (Slot.live none)) ++ [Slot.live cb]) b
        = refCountL strongs b := by
      rw [refCountL_append_single]
      by_cases hcb : Slot.live cb = Slot.live (some b) <;>
        simp [hcb] at hadd ⊢ <;> omega
    rw [hs]
    exact h

/-- Move-constructing a weak pointer: the source slot is emptied and a new
slot holding its old reference is appended; no count changes. -/
theorem invL_moveWeakCtor (blocks : List Block) (strongs weaks : List Slot)
    (src : Nat) (cb : Option Nat) (hInv : InvL blocks strongs weaks)
    (hslot : getSlot weaks src = Slot.live cb) :
    InvL blocks strongs ((weaks.set src (Slot.live none)) ++ [Slot.live cb]) := by
  obtain ⟨hvs, hvw, hblk⟩ := hInv
  have hsrclen : src < weaks.length := getSlot_lt_length _ _ _ hslot
  refine ⟨hvs, ?_, ?_⟩
  · intro b hb
    rcases List.mem_append.mp hb with hb | hb
    · rcases List.mem_or_eq_of_mem_set hb with hb | hb
      · exact hvw b hb
      · simp at hb
    · simp at hb
      rw [← hb] at hslot
      exact hvw b (mem_of_getSlot weaks src _ hslot (by simp))
  · intro b hb
    have h := hblk b hb
    unfold BlockInvL at h ⊢
    have hadd := refCountL_set_add weaks src (Slot.live none) b hsrclen
    rw [hslot] at hadd
    have hw : refCountL ((weaks.set src (Slot.live none)) ++ [Slot.live cb]) b
        = refCountL weaks b := by
      rw [refCountL_append_single]
      by_cases hcb : Slot.live cb = Slot.live (some b) <;>
        simp [hcb] at hadd ⊢ <;> omega
    rw [hw]
    exact h

/-- Swapping the `cb` fields of two live strong slots changes no counts. -/
theorem invL_swapStrong (blocks : List Block) (strongs weaks : List Slot)
    (i j : Nat) (ca cb2 : Option Nat) (hInv : InvL blocks strongs weaks)
    (hi : getSlot strongs i = Slot.live ca) (hj : getSlot strongs j = Slot.live cb2) :
    InvL blocks ((strongs.set i (Slot.live cb2)).set j (Slot.live ca)) weaks := by
  obtain ⟨hvs, hvw, hblk⟩ := hInv
  have hilen : i < strongs.length := getSlot_lt_length _ _ _ hi
  have hjlen : j < strongs.length := getSlot_lt_length _ _ _ hj
  refine ⟨?_, hvw, ?_⟩
  · intro b hb
    rcases List.mem_or_eq_of_mem_set hb with hb | hb
    · rcases List.mem_or_eq_of_mem_set hb with hb | hb
      · exact hvs b hb
      · simp at hb
        rw [← hb] at hj
        exact hvs b (mem_of_getSlot strongs j _ hj (by simp))
    · simp at hb
      rw [← hb] at hi
      exact hvs b (mem_of_getSlot strongs i _ hi (by simp))
  · intro b hb
    have h := hblk b hb
    unfold BlockInvL at h ⊢
    have hadd1 := refCountL_set_add strongs i (Slot.live cb2) b hilen
    rw [hi] at hadd1
    have hadd2 := refCountL_set_add (strongs.set i (Slot.live cb2)) j (Slot.live ca) b
      (by rw [List.length_set]; exact hjlen)
    by_cases hij : i = j
    · subst hij
      rw [getSlot_set_self _ _ _ hilen] at hadd2
      have hcc : ca = cb2 := by
        rw [hi] at hj
        simpa using hj
      subst hcc
      have hs : refCountL ((strongs.set i (Slot.live ca)).set i (Slot.live ca)) b
          = refCountL strongs b := by
        set t1 : Nat := (if Slot.live ca = Slot.live (some b) then 1 else 0)
        omega
      rw [hs]
      exact h
    · rw [getSlot_set_ne _ _ _ _ hij, hj] at hadd2
      have hs : refCountL ((strongs.set i (Slot.live cb2)).set j (Slot.live ca)) b
          = refCountL strongs b := by
        set t1 : Nat := (if Slot.live ca = Slot.live (some b) then 1 else 0)
        set t2 : Nat := (if Slot.live cb2 = Slot.live (some b) then 1 else 0)
        omega
      rw [hs]
      exact h

theorem blockOk_incrReleaseWeak (blk : Block) (sr wr : Nat) (h : BlockOk blk sr wr)
    (hok : 1 ≤ sr ∨ 1 ≤ wr) :
    BlockOk (releasedWeakBlock { blk with weak_count := blk.weak_count + 1 }) sr wr := by
  have := blockOk_releaseWeak _ _ _ (blockOk_incrWeak blk sr wr h hok) (by omega)
  exact blockOk_congr _ _ _ _ _ this rfl (by omega)

/-- Copy-assignment into a live strong slot: the source reference (if any) is
incremented, the destination slot is overwritten, and the destination's old
reference is released, in this order, exactly as the temporary-and-swap body
of `operator=` computes. -/
theorem invL_assignStrong (blocks : List Block) (strongs weaks : List Slot)
    (dst : Nat) (c d : Option Nat) (hInv : InvL blocks strongs weaks)
    (hc : ∀ j, c = some j → j < blocks.length ∧ 1 ≤ (blkD blocks j).shared_count)
    (hdst : getSlot strongs dst = Slot.live d) :
    InvL (releaseStrongCb (incrStrongCb blocks c) d)
         (strongs.set dst (Slot.live c)) weaks := by
  obtain ⟨hvs, hvw, hblk⟩ := hInv
  have hdlen : dst < strongs.length := getSlot_lt_length _ _ _ hdst
  cases c with
  | none =>
      rw [incrStrongCb_none]
      exact invL_dropStrong blocks strongs weaks dst d (Slot.live none)
        ⟨hvs, hvw, hblk⟩ hdst (Or.inr rfl)
  | some k =>
      obtain ⟨hklen, hksc⟩ := hc k rfl
      have hvs' : ∀ b, Slot.live (some b) ∈ strongs.set dst (Slot.live (some k)) →
          b < blocks.length := by
        intro b hb
        rcases List.mem_or_eq_of_mem_set hb with hb | hb
        · exact hvs b hb
        · simp at hb
          rw [hb]
          exact hklen
      rw [incrStrongCb_some blocks k hklen]
      cases d with
      | none =>
          rw [releaseStrongCb_none]
          refine ⟨?_, ?_, ?_⟩
          · intro b hb
            rw [List.length_set]
            exact hvs' b hb
          · intro b hb
            rw [List.length_set]
            exact hvw b hb
          · intro b hb
            rw [List.length_set] at hb
            have h := hblk b hb
            unfold BlockInvL at h ⊢
            have hadd := refCountL_set_add strongs dst (Slot.live (some k)) b hdlen
            rw [hdst] at hadd
            by_cases hbk : b = k
            · subst hbk
              rw [blkD_set_self _ _ _ hb]
              have hs : refCountL (strongs.set dst (Slot.live (some b))) b
                  = refCountL strongs b + 1 := by
                simp at hadd
                omega
              rw [hs]
              refine blockOk_incrStrong _ _ _ h ?_
              have := h.1
              omega
            · rw [blkD_set_ne _ _ _ _ (fun hcc => hbk hcc.symm)]
              have hs : refCountL (strongs.set dst (Slot.live (some k))) b
                  = refCountL strongs b := by
                have : ¬(Slot.live (some k) = Slot.live (some b)) := by simp; omega
                simp [this] at hadd
                exact hadd
              rw [hs]
              exact h
      | some m =>
          obtain ⟨hmlen, hmsc⟩ :=
            strong_slot_facts blocks strongs weaks ⟨hvs, hvw, hblk⟩ dst m hdst
          have hmref : 1 ≤ refCountL strongs m := refCountL_pos strongs dst m hdst
          have hmlen' : m < (blocks.set k
              { blkD blocks k with
                shared_count := (blkD blocks k).shared_count + 1 }).length := by
            rw [List.length_set]
            exact hmlen
          rw [releaseStrongCb_some _ m hmlen']
          by_cases hkm : k = m
          · subst hkm
            rw [blkD_set_self _ _ _ hklen, List.set_set]
            refine ⟨?_, ?_, ?_⟩
            · intro b hb
              rw [List.length_set]
              exact hvs' b hb
            · intro b hb
              rw [List.length_set]
              exact hvw b hb
            · intro b hb
              rw [List.length_set] at hb
              have h := hblk b hb
              unfold BlockInvL at h ⊢
              have hadd := refCountL_set_add strongs dst (Slot.live (some k)) b hdlen
              rw [hdst] at hadd
              by_cases hbk : b = k
              · subst hbk
                rw [blkD_set_self _ _ _ hb]
                have hs : refCountL (strongs.set dst (Slot.live (some b))) b
                    = refCountL strongs b := by
                  simp at hadd
                  omega
                rw [hs]
                exact blockOk_incrReleaseStrong _ _ _ h (by omega)
              · rw [blkD_set_ne _ _ _ _ (fun hcc => hbk hcc.symm)]
                have hs : refCountL (strongs.set dst (Slot.live (some k))) b
                    = refCountL strongs b := by
                  have : ¬(Slot.live (some k) = Slot.live (some b)) := by simp; omega
                  simp [this] at hadd
                  exact hadd
                rw [hs]
                exact h
          · rw [blkD_set_ne _ _ _ _ hkm]
            refine ⟨?_, ?_, ?_⟩
            · intro b hb
              rw [List.length_set, List.length_set]
              exact hvs' b hb
            · intro b hb
              rw [List.length_set, List.length_set]
              exact hvw b hb
            · intro b hb
              rw [List.length_set, List.length_set] at hb
              have h := hblk b hb
              unfold BlockInvL at h ⊢
              have hadd := refCountL_set_add strongs dst (Slot.live (some k)) b hdlen
              rw [hdst] at hadd
              by_cases hbm : b = m
              · subst hbm
                rw [blkD_set_self _ _ _ hmlen']
                have hs : refCountL (strongs.set dst (Slot.live (some k))) b
                    = refCountL strongs b - 1 := by
                  have : ¬(Slot.live (some k) = Slot.live (some b)) := by simp; omega
                  simp [this] at hadd
                  omega
                rw [hs]
                exact blockOk_releaseStrong _ _ _ h hmref
              · rw [blkD_set_ne _ _ _ _ (fun hcc => hbm hcc.symm)]
                by_cases hbk : b = k
                · subst hbk
                  rw [blkD_set_self _ _ _ hklen]
                  have hs : refCountL (strongs.set dst (Slot.live (some b))) b
                      = refCountL strongs b + 1 := by
                    have : ¬(Slot.live (some m) = Slot.live (some b)) := by simp; omega
                    simp [this] at hadd
                    omega
                  rw [hs]
                  refine blockOk_incrStrong _ _ _ h ?_
                  have := h.1
                  omega
                · rw [blkD_set_ne _ _ _ _ (fun hcc => hbk hcc.symm)]
                  have hs : refCountL (strongs.set dst (Slot.live (some k))) b
                      = refCountL strongs b := by
                    have h1 : ¬(Slot.live (some k) = Slot.live (some b)) := by simp; omega
                    have h2 : ¬(Slot.live (some m) = Slot.live (some b)) := by simp; omega
                    simp [h1, h2] at hadd
                    exact hadd
                  rw [hs]
                  exact h

/-- Move-assignment into a live strong slot: the source slot is emptied, the
destination takes its old reference, and the destination's old reference
(read after the source was emptied, which neutralises self-move) is
released. -/
theorem invL_moveAssignStrong (blocks : List Block) (strongs weaks : List Slot)
    (dst src : Nat) (c d0 : Option Nat) (hInv : InvL blocks strongs weaks)
    (hsrc : getSlot strongs src = Slot.live c)
    (hdst : getSlot strongs dst = Slot.live d0) :
    InvL (releaseStrongCb blocks
            (slotCbD (getSlot (strongs.set src (Slot.live none)) dst)))
         ((strongs.set src (Slot.live none)).set dst (Slot.live c)) weaks := by
  obtain ⟨hvs, hvw, hblk⟩ := hInv
  have hsrclen : src < strongs.length := getSlot_lt_length _ _ _ hsrc
  have hdstlen : dst < strongs.length := getSlot_lt_length _ _ _ hdst
  by_cases hds : dst = src
  · subst hds
    rw [getSlot_set_self _ _ _ hsrclen, List.set_set,
        set_getD_self_eq strongs dst (Slot.live c) Slot.dead hsrc (by simp)]
    exact ⟨hvs, hvw, hblk⟩
  · rw [getSlot_set_ne _ _ _ _ (fun hq => hds hq.symm), hdst]
    simp only [slotCbD]
    have hvs' : ∀ b, Slot.live (some b) ∈ (strongs.set src (Slot.live none)).set dst
        (Slot.live c) → b < blocks.length := by
      intro b hb
      rcases List.mem_or_eq_of_mem_set hb with hb | hb
      · rcases List.mem_or_eq_of_mem_set hb with hb | hb
        · exact hvs b hb
        · simp at hb
      · simp at hb
        rw [← hb] at hsrc
        exact hvs b (mem_of_getSlot strongs src _ hsrc (by simp))
    cases d0 with
    | none =>
        rw [releaseStrongCb_none]
        refine ⟨hvs', hvw, ?_⟩
        intro b hb
        have h := hblk b hb
        unfold BlockInvL at h ⊢
        have hadd1 := refCountL_set_add strongs src (Slot.live none) b hsrclen
        rw [hsrc] at hadd1
        have hadd2 := refCountL_set_add (strongs.set src (Slot.live none)) dst
          (Slot.live c) b (by rw [List.length_set]; exact hdstlen)
        rw [getSlot_set_ne _ _ _ _ (fun hq => hds hq.symm), hdst] at hadd2
        have hs : refCountL ((strongs.set src (Slot.live none)).set dst (Slot.live c)) b
            = refCountL strongs b := by
          set t1 : Nat := (if Slot.live c = Slot.live (some b) then 1 else 0)
          simp at hadd1 hadd2
          omega
        rw [hs]
        exact h
    | some m =>
        obtain ⟨hmlen, hmsc⟩ :=
          strong_slot_facts blocks strongs weaks ⟨hvs, hvw, hblk⟩ dst m hdst
        have hmref : 1 ≤ refCountL strongs m := refCountL_pos strongs dst m hdst
        rw [releaseStrongCb_some blocks m hmlen]
        refine ⟨?_, ?_, ?_⟩
        · intro b hb
          rw [List.length_set]
          exact hvs' b hb
        · intro b hb
          rw [List.length_set]
          exact hvw b hb
        · intro b hb
          rw [List.length_set] at hb
          have h := hblk b hb
          unfold BlockInvL at h ⊢
          have hadd1 := refCountL_set_add strongs src (Slot.live none) b hsrclen
          rw [hsrc] at hadd1
          have hadd2 := refCountL_set_add (strongs.set src (Slot.live none)) dst
            (Slot.live c) b (by rw [List.length_set]; exact hdstlen)
          rw [getSlot_set_ne _ _ _ _ (fun hq => hds hq.symm), hdst] at hadd2
          by_cases hbm : b = m
          · subst hbm
            rw [blkD_set_self _ _ _ hb]
            have hs : refCountL ((strongs.set src (Slot.live none)).set dst
                (Slot.live c)) b = refCountL strongs b - 1 := by
              set t1 : Nat := (if Slot.live c = Slot.live (some b) then 1 else 0)
              simp at hadd1 hadd2
              omega
            rw [hs]
            exact blockOk_releaseStrong _ _ _ h hmref
          · rw [blkD_set_ne _ _ _ _ (fun hq => hbm hq.symm)]
            have hs : refCountL ((strongs.set src (Slot.live none)).set dst
                (Slot.live c)) b = refCountL strongs b := by
              have hne : ¬(Slot.live (some m) = Slot.live (some b)) := by simp; omega
              set t1 : Nat := (if Slot.live c = Slot.live (some b) then 1 else 0)
              simp [hne] at hadd1 hadd2
              omega
            rw [hs]
            exact h

/-- Copy-assignment into a live weak slot (also the computation performed by
the weak move-assignment operator and by assignment from a strong pointer):
the source reference (if any) gets its weak count incremented, the
destination slot is overwritten, and the destination's old weak reference is
released. -/
theorem invL_assignWeak (blocks : List Block) (strongs weaks : List Slot)
    (dst : Nat) (c d : Option Nat) (hInv : InvL blocks strongs weaks)
    (hc : ∀ j, c = some j → j < blocks.length ∧
        (1 ≤ (blkD blocks j).shared_count ∨ 1 ≤ (blkD blocks j).weak_count))
    (hdst : getSlot weaks dst = Slot.live d) :
    InvL (releaseWeakCb (incrWeakCb blocks c) d)
         strongs (weaks.set dst (Slot.live c)) := by
  obtain ⟨hvs, hvw, hblk⟩ := hInv
  have hdlen : dst < weaks.length := getSlot_lt_length _ _ _ hdst
  cases c with
  | none =>
      rw [incrWeakCb_none]
      exact invL_dropWeak blocks strongs weaks dst d (Slot.live none)
        ⟨hvs, hvw, hblk⟩ hdst (Or.inr rfl)
  | some k =>
      obtain ⟨hklen, hkok⟩ := hc k rfl
      have hvw' : ∀ b, Slot.live (some b) ∈ weaks.set dst (Slot.live (some k)) →
          b < blocks.length := by
        intro b hb
        rcases List.mem_or_eq_of_mem_set hb with hb | hb
        · exact hvw b hb
        · simp at hb
          rw [hb]
          exact hklen
      rw [incrWeakCb_some blocks k hklen]
      cases d with
      | none =>
          rw [releaseWeakCb_none]
          refine ⟨?_, ?_, ?_⟩
          · intro b hb
            rw [List.length_set]
            exact hvs b hb
          · intro b hb
            rw [List.length_set]
            exact hvw' b hb
          · intro b hb
            rw [List.length_set] at hb
            have h := hblk b hb
            unfold BlockInvL at h ⊢
            have hadd := refCountL_set_add weaks dst (Slot.live (some k)) b hdlen
            rw [hdst] at hadd
            by_cases hbk : b = k
            · subst hbk
              rw [blkD_set_self _ _ _ hb]
              have hw : refCountL (weaks.set dst (Slot.live (some b))) b
                  = refCountL weaks b + 1 := by
                simp at hadd
                omega
              rw [hw]
              refine blockOk_incrWeak _ _ _ h ?_
              have h1 := h.1
              have h2 := h.2.1
              omega
            · rw [blkD_set_ne _ _ _ _ (fun hcc => hbk hcc.symm)]
              have hw : refCountL (weaks.set dst (Slot.live (some k))) b
                  = refCountL weaks b := by
                have : ¬(Slot.live (some k) = Slot.live (some b)) := by simp; omega
                simp [this] at hadd
                exact hadd
              rw [hw]
              exact h
      | some m =>
          obtain ⟨hmlen, hmwc⟩ :=
            weak_slot_facts blocks strongs weaks ⟨hvs, hvw, hblk⟩ dst m hdst
          have hmref : 1 ≤ refCountL weaks m := refCountL_pos weaks dst m hdst
          have hmlen' : m < (blocks.set k
              { blkD blocks k with
                weak_count := (blkD blocks k).weak_count + 1 }).length := by
            rw [List.length_set]
            exact hmlen
          rw [releaseWeakCb_some _ m hmlen']
          by_cases hkm : k = m
          · subst hkm
            rw [blkD_set_self _ _ _ hklen, List.set_set]
            refine ⟨?_, ?_, ?_⟩
            · intro b hb
              rw [List.length_set]
              exact hvs b hb
            · intro b hb
              rw [List.length_set]
              exact hvw' b hb
            · intro b hb
              rw [List.length_set] at hb
              have h := hblk b hb
              unfold BlockInvL at h ⊢
              have hadd := refCountL_set_add weaks dst (Slot.live (some k)) b hdlen
              rw [hdst] at hadd
              by_cases hbk : b = k
              · subst hbk
                rw [blkD_set_self _ _ _ hb]
                have hw : refCountL (weaks.set dst (Slot.live (some b))) b
                    = refCountL weaks b := by
                  simp at hadd
                  omega
                rw [hw]
                refine blockOk_incrReleaseWeak _ _ _ h ?_
                have h1 := h.1
                have h2 := h.2.1
                omega
              · rw [blkD_set_ne _ _ _ _ (fun hcc => hbk hcc.symm)]
                have hw : refCountL (weaks.set dst (Slot.live (some k))) b
                    = refCountL weaks b := by
                  have : ¬(Slot.live (some k) = Slot.live (some b)) := by simp; omega
                  simp [this] at hadd
                  exact hadd
                rw [hw]
                exact h
          · rw [blkD_set_ne _ _ _ _ hkm]
            refine ⟨?_, ?_, ?_⟩
            · intro b hb
              rw [List.length_set, List.length_set]
              exact hvs b hb
            · intro b hb
              rw [List.length_set, List.length_set]
              exact hvw' b hb
            · intro b hb
              rw [List.length_set, List.length_set] at hb
              have h := hblk b hb
              unfold BlockInvL at h ⊢
              have hadd := refCountL_set_add weaks dst (Slot.live (some k)) b hdlen
              rw [hdst] at hadd
              by_cases hbm : b = m
              · subst hbm
                rw [blkD_set_self _ _ _ hmlen']
                have hw : refCountL (weaks.set dst (Slot.live (some k))) b
                    = refCountL weaks b - 1 := by
                  have : ¬(Slot.live (some k) = Slot.live (some b)) := by simp; omega
                  simp [this] at hadd
                  omega
                rw [hw]
                exact blockOk_releaseWeak _ _ _ h hmref
              · rw [blkD_set_ne _ _ _ _ (fun hcc => hbm hcc.symm)]
                by_cases hbk : b = k
                · subst hbk
                  rw [blkD_set_self _ _ _ hklen]
                  have hw : refCountL (weaks.set dst (Slot.live (some b))) b
                      = refCountL weaks b + 1 := by
                    have : ¬(Slot.live (some m) = Slot.live (some b)) := by simp; omega
                    simp [this] at hadd
                    omega
                  rw [hw]
                  refine blockOk_incrWeak _ _ _ h ?_
                  have h1 := h.1
                  have h2 := h.2.1
                  omega
                · rw [blkD_set_ne _ _ _ _ (fun hcc => hbk hcc.symm)]
                  have hw : refCountL (weaks.set dst (Slot.live (some k))) b
                      = refCountL weaks b := by
                    have h1 : ¬(Slot.live (some k) = Slot.live (some b)) := by simp; omega
                    have h2 : ¬(Slot.live (some m) = Slot.live (some b)) := by simp; omega
                    simp [h1, h2] at hadd
                    exact hadd
                  rw [hw]
                  exact h

/-- The `reset(Y*)` shape: a fresh block is appended, the resetting slot is
redirected to it, and the slot's old reference is released. -/
theorem invL_resetPtr (blocks : List Block) (strongs weaks : List Slot)
    (i : Nat) (d : Option Nat) (kind : BlockKind) (aid : Nat)
    (hInv : InvL blocks strongs weaks) (hslot : getSlot strongs i = Slot.live d) :
    InvL (releaseStrongCb (blocks ++ [⟨1, 0, kind, aid, 0, 0, []⟩]) d)
         (strongs.set i (Slot.live (some blocks.length))) weaks := by
  obtain ⟨hvs, hvw, hblk⟩ := hInv
  have hilen : i < strongs.length := getSlot_lt_length _ _ _ hslot
  have hvs' : ∀ b, Slot.live (some b) ∈ strongs.set i (Slot.live (some blocks.length)) →
      b < (blocks ++ [(⟨1, 0, kind, aid, 0, 0, []⟩ : Block)]).length := by
    intro b hb
    rw [List.length_append, List.length_singleton]
    rcases List.mem_or_eq_of_mem_set hb with hb | hb
    · have := hvs b hb
      omega
    · simp at hb
      omega
  have hvw'' : ∀ b, Slot.live (some b) ∈ weaks →
      b < (blocks ++ [(⟨1, 0, kind, aid, 0, 0, []⟩ : Block)]).length := by
    intro b hb
    rw [List.length_append, List.length_singleton]
    have := hvw b hb
    omega
  have hlen1 : (blocks ++ [(⟨1, 0, kind, aid, 0, 0, []⟩ : Block)]).length = blocks.length + 1 := by
    rw [List.length_append, List.length_singleton]
  cases d with
  | none =>
      rw [releaseStrongCb_none]
      refine ⟨hvs', hvw'', ?_⟩
      intro b hb
      rw [hlen1] at hb
      unfold BlockInvL
      have hadd := refCountL_set_add strongs i (Slot.live (some blocks.length)) b hilen
      rw [hslot] at hadd
      by_cases hbl : b = blocks.length
      · subst hbl
        rw [blkD_append_self]
        have hs : refCountL (strongs.set i (Slot.live (some blocks.length)))
            blocks.length = 1 := by
          have h0 : refCountL strongs blocks.length = 0 :=
            refCountL_zero_of_valid strongs blocks.length hvs
          simp at hadd
          omega
        have hw : refCountL weaks blocks.length = 0 :=
          refCountL_zero_of_valid weaks blocks.length hvw
        rw [hs, hw]
        exact blockOk_new kind aid
      · have hlt : b < blocks.length := by omega
        rw [blkD_append_lt _ _ _ hlt]
        have h := hblk b hlt
        unfold BlockInvL at h
        have hs : refCountL (strongs.set i (Slot.live (some blocks.length))) b
            = refCountL strongs b := by
          have h1 : ¬(Slot.live (some blocks.length) = Slot.live (some b)) := by
            simp; omega
          simp [h1] at hadd
          exact hadd
        rw [hs]
        exact h
  | some m =>
      obtain ⟨hmlen, hmsc⟩ :=
        strong_slot_facts blocks strongs weaks ⟨hvs, hvw, hblk⟩ i m hslot
      have hmref : 1 ≤ refCountL strongs m := refCountL_pos strongs i m hslot
      have hmlen' : m < (blocks ++ [(⟨1, 0, kind, aid, 0, 0, []⟩ : Block)]).length := by
        rw [hlen1]; omega
      rw [releaseStrongCb_some _ m hmlen', blkD_append_lt _ _ _ hmlen]
      refine ⟨?_, ?_, ?_⟩
      · intro b hb
        rw [List.length_set]
        exact hvs' b hb
      · intro b hb
        rw [List.length_set]
        exact hvw'' b hb
      · intro b hb
        rw [List.length_set, hlen1] at hb
        unfold BlockInvL
        have hadd := refCountL_set_add strongs i (Slot.live (some blocks.length)) b hilen
        rw [hslot] at hadd
        by_cases hbm : b = m
        · subst hbm
          rw [blkD_set_self _ _ _ hmlen']
          have h := hblk b hmlen
          unfold BlockInvL at h
          have hs : refCountL (strongs.set i (Slot.live (some blocks.length))) b
              = refCountL strongs b - 1 := by
            have h1 : ¬(Slot.live (some blocks.length) = Slot.live (some b)) := by
              simp; omega
            simp [h1] at hadd
            omega
          rw [hs]
          exact blockOk_releaseStrong _ _ _ h hmref
        · rw [blkD_set_ne _ _ _ _ (fun hq => hbm hq.symm)]
          by_cases hbl : b = blocks.length
          · subst hbl
            rw [blkD_append_self]
            have hs : refCountL (strongs.set i (Slot.live (some blocks.length)))
                blocks.length = 1 := by
              have h0 : refCountL strongs blocks.length = 0 :=
                refCountL_zero_of_valid strongs blocks.length hvs
              have h1 : ¬(Slot.live (some m) = Slot.live (some blocks.length)) := by
                simp; omega
              simp [h1] at hadd
              omega
            have hw : refCountL weaks blocks.length = 0 :=
              refCountL_zero_of_valid weaks blocks.length hvw
            rw [hs, hw]
            exact blockOk_new kind aid
          · have hlt : b < blocks.length := by omega
            rw [blkD_append_lt _ _ _ hlt]
            have h := hblk b hlt
            unfold BlockInvL at h
            have hs : refCountL (strongs.set i (Slot.live (some blocks.length))) b
                = refCountL strongs b := by
              have h1 : ¬(Slot.live (some blocks.length) = Slot.live (some b)) := by
                simp; omega
              have h2 : ¬(m = b) := fun hq => hbm hq.symm
              simp [h1, h2] at hadd
              exact hadd
            rw [hs]
            exact h

/-- A non-zero `use_count()` read through a block pointer certifies a valid
block with positive shared count. -/
theorem cbUseCount_pos (blocks : List Block) (j : Nat)
    (h : cbUseCount blocks (some j) ≠ 0) :
    j < blocks.length ∧ 1 ≤ (blkD blocks j).shared_count := by
  cases hj : blocks[j]? with
  | none => simp [cbUseCount, hj] at h
  | some blk =>
      simp only [cbUseCount, hj] at h
      obtain ⟨hlt, hval⟩ := List.getElem?_eq_some.mp hj
      have hbd : blkD blocks j = blk := by
        rw [blkD, hj]; rfl
      rw [hbd]
      exact ⟨hlt, by omega⟩

/-- Every operation of the public API preserves the global invariant. -/
theorem inv_step (op : Op) (s : State) (hInv : Inv s) : Inv (step op s) := by
  cases op with
  | newStrong =>
      exact invL_pushStrong s.blocks s.strongs s.weaks none hInv
        (fun j hj => Option.noConfusion hj)
  | ptrCtorStrong p d a =>
      exact invL_create s.blocks s.strongs s.weaks (BlockKind.withoutMake p d) 0 hInv
  | allocSharedOp v a =>
      exact invL_create s.blocks s.strongs s.weaks (BlockKind.withMake v) a hInv
  | makeSharedOp v =>
      exact invL_create s.blocks s.strongs s.weaks (BlockKind.withMake v) 0 hInv
  | copyStrong src =>
      cases hsl : getSlot s.strongs src with
      | dead => simp only [step, hsl]; exact hInv
      | live cb =>
          simp only [step, hsl]
          refine invL_pushStrong s.blocks s.strongs s.weaks cb hInv ?_
          intro j hj
          subst hj
          exact strong_slot_facts s.blocks s.strongs s.weaks hInv src j hsl
  | moveStrong src =>
      cases hsl : getSlot s.strongs src with
      | dead => simp only [step, hsl]; exact hInv
      | live cb =>
          simp only [step, hsl]
          exact invL_moveStrongCtor s.blocks s.strongs s.weaks src cb hInv hsl
  | copyAssignStrong dst src =>
      cases hs1 : getSlot s.strongs src with
      | dead => simp only [step, hs1]; exact hInv
      | live c =>
          cases hs2 : getSlot s.strongs dst with
          | dead => simp only [step, hs1, hs2]; exact hInv
          | live d =>
              simp only [step, hs1, hs2]
              refine invL_assignStrong s.blocks s.strongs s.weaks dst c d hInv ?_ hs2
              intro j hj
              subst hj
              exact strong_slot_facts s.blocks s.strongs s.weaks hInv src j hs1
  | moveAssignStrong dst src =>
      cases hs1 : getSlot s.strongs src with
      | dead => simp only [step, hs1]; exact hInv
      | live c =>
          cases hs2 : getSlot s.strongs dst with
          | dead => simp only [step, hs1, hs2]; exact hInv
          | live d =>
              simp only [step, hs1, hs2]
              exact invL_moveAssignStrong s.blocks s.strongs s.weaks dst src c d
                hInv hs1 hs2
  | resetStrong i =>
      cases hsl : getSlot s.strongs i with
      | dead => simp only [step, hsl]; exact hInv
      | live d =>
          simp only [step, hsl]
          exact invL_dropStrong s.blocks s.strongs s.weaks i d (Slot.live none)
            hInv hsl (Or.inr rfl)
  | resetStrongPtr i p =>
      cases hsl : getSlot s.strongs i with
      | dead => simp only [step, hsl]; exact hInv
      | live d =>
          simp only [step, hsl]
          exact invL_resetPtr s.blocks s.strongs s.weaks i d
            (BlockKind.withoutMake p 0) 0 hInv hsl
  | destroyStrong i =>
      cases hsl : getSlot s.strongs i with
      | dead => simp only [step, hsl]; exact hInv
      | live d =>
          simp only [step, hsl]
          exact invL_dropStrong s.blocks s.strongs s.weaks i d Slot.dead
            hInv hsl (Or.inl rfl)
  | swapStrong i j =>
      cases hs1 : getSlot s.strongs i with
      | dead => simp only [step, hs1]; exact hInv
      | live ca =>
          cases hs2 : getSlot s.strongs j with
          | dead => simp only [step, hs1, hs2]; exact hInv
          | live cb2 =>
              simp only [step, hs1, hs2]
              exact invL_swapStrong s.blocks s.strongs s.weaks i j ca cb2 hInv hs1 hs2
  | newWeak =>
      exact invL_pushWeak s.blocks s.strongs s.weaks none hInv
        (fun j hj => Option.noConfusion hj)
  | weakFromStrong src =>
      cases hsl : getSlot s.strongs src with
      | dead => simp only [step, hsl]; exact hInv
      | live c =>
          simp only [step, hsl]
          refine invL_pushWeak s.blocks s.strongs s.weaks c hInv ?_
          intro j hj
          subst hj
          obtain ⟨h1, h2⟩ := strong_slot_facts s.blocks s.strongs s.weaks hInv src j hsl
          exact ⟨h1, Or.inl h2⟩
  | copyWeak src =>
      cases hsl : getSlot s.weaks src with
      | dead => simp only [step, hsl]; exact hInv
      | live c =>
          simp only [step, hsl]
          refine invL_pushWeak s.blocks s.strongs s.weaks c hInv ?_
          intro j hj
          subst hj
          obtain ⟨h1, h2⟩ := weak_slot_facts s.blocks s.strongs s.weaks hInv src j hsl
          exact ⟨h1, Or.inr h2⟩
  | moveWeak src =>
      cases hsl : getSlot s.weaks src with
      | dead => simp only [step, hsl]; exact hInv
      | live c =>
          simp only [step, hsl]
          exact invL_moveWeakCtor s.blocks s.strongs s.weaks src c hInv hsl
  | copyAssignWeak dst src =>
      cases hs1 : getSlot s.weaks src with
      | dead => simp only [step, hs1]; exact hInv
      | live c =>
          cases hs2 : getSlot s.weaks dst with
          | dead => simp only [step, hs1, hs2]; exact hInv
          | live d =>
              simp only [step, hs1, hs2]
              refine invL_assignWeak s.blocks s.strongs s.weaks dst c d hInv ?_ hs2
              intro j hj
              subst hj
              obtain ⟨h1, h2⟩ := weak_slot_facts s.blocks s.strongs s.weaks hInv src j hs1
              exact ⟨h1, Or.inr h2⟩
  | moveAssignWeak dst src =>
      cases hs1 : getSlot s.weaks src with
      | dead => simp only [step, hs1]; exact hInv
      | live c =>
          cases hs2 : getSlot s.weaks dst with
          | dead => simp only [step, hs1, hs2]; exact hInv
          | live d =>
              simp only [step, hs1, hs2]
              refine invL_assignWeak s.blocks s.strongs s.weaks dst c d hInv ?_ hs2
              intro j hj
              subst hj
              obtain ⟨h1, h2⟩ := weak_slot_facts s.blocks s.strongs s.weaks hInv src j hs1
              exact ⟨h1, Or.inr h2⟩
  | weakAssignFromStrong dst src =>
      cases hs1 : getSlot s.strongs src with
      | dead => simp only [step, hs1]; exact hInv
      | live c =>
          cases hs2 : getSlot s.weaks dst with
          | dead => simp only [step, hs1, hs2]; exact hInv
          | live d =>
              simp only [step, hs1, hs2]
              refine invL_assignWeak s.blocks s.strongs s.weaks dst c d hInv ?_ hs2
              intro j hj
              subst hj
              obtain ⟨h1, h2⟩ := strong_slot_facts s.blocks s.strongs s.weaks hInv src j hs1
              exact ⟨h1, Or.inl h2⟩
  | destroyWeak i =>
      cases hsl : getSlot s.weaks i with
      | dead => simp only [step, hsl]; exact hInv
      | live d =>
          simp only [step, hsl]
          exact invL_dropWeak s.blocks s.strongs s.weaks i d Slot.dead
            hInv hsl (Or.inl rfl)
  | lockWeak w =>
      cases hsl : getSlot s.weaks w with
      | dead => simp only [step, hsl]; exact hInv
      | live c =>
          simp only [step, hsl]
          by_cases hg : cbUseCount s.blocks c ≠ 0
          · rw [if_pos hg]
            refine invL_pushStrong s.blocks s.strongs s.weaks c hInv ?_
            intro j hj
            subst hj
            exact cbUseCount_pos s.blocks j hg
          · rw [if_neg hg]
            exact invL_pushStrong s.blocks s.strongs s.weaks none hInv
              (fun j hj => Option.noConfusion hj)

/-- The empty initial state satisfies the invariant. -/
theorem inv_init : Inv initState := by
  refine ⟨?_, ?_, ?_⟩
  · intro b hb
    simp [initState] at hb
  · intro b hb
    simp [initState] at hb
  · intro b hb
    simp [initState] at hb

/-- Every state reachable from a state satisfying the invariant satisfies the
invariant. -/
theorem inv_run (ops : List Op) (s : State) (hInv : Inv s) : Inv (run ops s) := by
  induction ops generalizing s with
  | nil => exact hInv
  | cons op rest ih => exact ih (step op s) (inv_step op s hInv)

/-- Every state reachable by the public API satisfies the invariant. -/
theorem inv_reachable (ops : List Op) : Inv (run ops initState) :=
  inv_run ops initState inv_init

/-! Per-block effect enumeration of one step, used for the transition-exactness
properties of `destroy()` and `deallocate()`. -/

theorem set_self_of_lt {α : Type} (l : List α) (i : Nat) (h : i < l.length) :
    l.set i l[i] = l := by
  induction l generalizing i with
  | nil => simp at h
  | cons a t ih =>
      cases i with
      | zero => simp
      | succ n => simp [ih n (by simpa using h)]

theorem blkD_incrStrongCb (blocks : List Block) (cb : Option Nat) (b : Nat) :
    blkD (incrStrongCb blocks cb) b = blkD blocks b ∨
    blkD (incrStrongCb blocks cb) b
      = { blkD blocks b with shared_count := (blkD blocks b).shared_count + 1 } := by
  cases cb with
  | none => exact Or.inl rfl
  | some j =>
      cases hj : blocks[j]? with
      | none => left; simp only [incrStrongCb, hj]
      | some blk =>
          have hjlen : j < blocks.length := (List.getElem?_eq_some.mp hj).1
          rw [incrStrongCb_some blocks j hjlen]
          by_cases hbj : b = j
          · subst hbj
            right
            rw [blkD_set_self _ _ _ hjlen]
          · left
            rw [blkD_set_ne _ _ _ _ (fun hq => hbj hq.symm)]

theorem blkD_incrWeakCb (blocks : List Block) (cb : Option Nat) (b : Nat) :
    blkD (incrWeakCb blocks cb) b = blkD blocks b ∨
    blkD (incrWeakCb blocks cb) b
      = { blkD blocks b with weak_count := (blkD blocks b).weak_count + 1 } := by
  cases cb with
  | none => exact Or.inl rfl
  | some j =>
      cases hj : blocks[j]? with
      | none => left; simp only [incrWeakCb, hj]
      | some blk =>
          have hjlen : j < blocks.length := (List.getElem?_eq_some.mp hj).1
          rw [incrWeakCb_some blocks j hjlen]
          by_cases hbj : b = j
          · subst hbj
            right
            rw [blkD_set_self _ _ _ hjlen]
          · left
            rw [blkD_set_ne _ _ _ _ (fun hq => hbj hq.symm)]

theorem blkD_releaseStrongCb (blocks : List Block) (cb : Option Nat) (b : Nat) :
    blkD (releaseStrongCb blocks cb) b = blkD blocks b ∨
    blkD (releaseStrongCb blocks cb) b = releasedStrongBlock (blkD blocks b) := by
  cases cb with
  | none => exact Or.inl rfl
  | some j =>
      cases hj : blocks[j]? with
      | none => left; simp only [releaseStrongCb, hj]
      | some blk =>
          have hjlen : j < blocks.length := (List.getElem?_eq_some.mp hj).1
          rw [releaseStrongCb_some blocks j hjlen]
          by_cases hbj : b = j
          · subst hbj
            right
            rw [blkD_set_self _ _ _ hjlen]
          · left
            rw [blkD_set_ne _ _ _ _ (fun hq => hbj hq.symm)]

theorem blkD_releaseWeakCb (blocks : List Block) (cb : Option Nat) (b : Nat) :
    blkD (releaseWeakCb blocks cb) b = blkD blocks b ∨
    blkD (releaseWeakCb blocks cb) b = releasedWeakBlock (blkD blocks b) := by
  cases cb with
  | none => exact Or.inl rfl
  | some j =>
      cases hj : blocks[j]? with
      | none => left; simp only [releaseWeakCb, hj]
      | some blk =>
          have hjlen : j < blocks.length := (List.getElem?_eq_some.mp hj).1
          rw [releaseWeakCb_some blocks j hjlen]
          by_cases hbj : b = j
          · subst hbj
            right
            rw [blkD_set_self _ _ _ hjlen]
          · left
            rw [blkD_set_ne _ _ _ _ (fun hq => hbj hq.symm)]

/-- Across one step, the block at a valid index `b` is either untouched,
incremented on one count, released once through the strong or weak destructor
body, or incremented and then released within the same operation.  This is an
exhaustive enumeration of the per-block effects of the API. -/
theorem blkD_step_cases (op : Op) (s : State) (b : Nat) (hb : b < s.blocks.length) :
    blkD (step op s).blocks b = blkD s.blocks b ∨
    blkD (step op s).blocks b
      = { blkD s.blocks b with shared_count := (blkD s.blocks b).shared_count + 1 } ∨
    blkD (step op s).blocks b
      = { blkD s.blocks b with weak_count := (blkD s.blocks b).weak_count + 1 } ∨
    blkD (step op s).blocks b = releasedStrongBlock (blkD s.blocks b) ∨
    blkD (step op s).blocks b = releasedWeakBlock (blkD s.blocks b) ∨
    blkD (step op s).blocks b
      = releasedStrongBlock
          { blkD s.blocks b with shared_count := (blkD s.blocks b).shared_count + 1 } ∨
    blkD (step op s).blocks b
      = releasedWeakBlock
          { blkD s.blocks b with weak_count := (blkD s.blocks b).weak_count + 1 } := by
  cases op with
  | newStrong => exact Or.inl rfl
  | ptrCtorStrong p d a =>
      left
      exact blkD_append_lt _ _ _ hb
  | allocSharedOp v a =>
      left
      exact blkD_append_lt _ _ _ hb
  | makeSharedOp v =>
      left
      exact blkD_append_lt _ _ _ hb
  | copyStrong src =>
      cases hsl : getSlot s.strongs src with
      | dead => simp [step, hsl]
      | live cb =>
          simp only [step, hsl]
          rcases blkD_incrStrongCb s.blocks cb b with h | h
          · exact Or.inl h
          · exact Or.inr (Or.inl h)
  | moveStrong src =>
      cases hsl : getSlot s.strongs src with
      | dead => simp [step, hsl]
      | live cb => simp [step, hsl]
  | copyAssignStrong dst src =>
      cases hs1 : getSlot s.strongs src with
      | dead => simp [step, hs1]
      | live c =>
          cases hs2 : getSlot s.strongs dst with
          | dead => simp [step, hs1, hs2]
          | live d =>
              simp only [step, hs1, hs2]
              rcases blkD_releaseStrongCb (incrStrongCb s.blocks c) d b with h | h <;>
                rcases blkD_incrStrongCb s.blocks c b with h2 | h2 <;> rw [h2] at h
              · exact Or.inl h
              · exact Or.inr (Or.inl h)
              · exact Or.inr (Or.inr (Or.inr (Or.inl h)))
              · exact Or.inr (Or.inr (Or.inr (Or.inr (Or.inr (Or.inl h)))))
  | moveAssignStrong dst src =>
      cases hs1 : getSlot s.strongs src with
      | dead => simp [step, hs1]
      | live c =>
          cases hs2 : getSlot s.strongs dst with
          | dead => simp [step, hs1, hs2]
          | live d =>
              simp only [step, hs1, hs2]
              rcases blkD_releaseStrongCb s.blocks
                  (slotCbD (getSlot (s.strongs.set src (Slot.live none)) dst)) b with h | h
              · exact Or.inl h
              · exact Or.inr (Or.inr (Or.inr (Or.inl h)))
  | resetStrong i =>
      cases hsl : getSlot s.strongs i with
      | dead => simp [step, hsl]
      | live d =>
          simp only [step, hsl]
          rcases blkD_releaseStrongCb s.blocks d b with h | h
          · exact Or.inl h
          · exact Or.inr (Or.inr (Or.inr (Or.inl h)))
  | resetStrongPtr i p =>
      cases hsl : getSlot s.strongs i with
      | dead => simp [step, hsl]
      | live d =>
          simp only [step, hsl]
          rcases blkD_releaseStrongCb
              (s.blocks ++ [⟨1, 0, BlockKind.withoutMake p 0, 0, 0, 0, []⟩]) d b with h | h <;>
            rw [blkD_append_lt _ _ _ hb] at h
          · exact Or.inl h
          · exact Or.inr (Or.inr (Or.inr (Or.inl h)))
  | destroyStrong i =>
      cases hsl : getSlot s.strongs i with
      | dead => simp [step, hsl]
      | live d =>
          simp only [step, hsl]
          rcases blkD_releaseStrongCb s.blocks d b with h | h
          · exact Or.inl h
          · exact Or.inr (Or.inr (Or.inr (Or.inl h)))
  | swapStrong i j =>
      cases hs1 : getSlot s.strongs i with
      | dead => simp [step, hs1]
      | live ca =>
          cases hs2 : getSlot s.strongs j with
          | dead => simp [step, hs1, hs2]
          | live cb2 => simp [step, hs1, hs2]
  | newWeak => exact Or.inl rfl
  | weakFromStrong src =>
      cases hsl : getSlot s.strongs src with
      | dead => simp [step, hsl]
      | live c =>
          simp only [step, hsl]
          rcases blkD_incrWeakCb s.blocks c b with h | h
          · exact Or.inl h
          · exact Or.inr (Or.inr (Or.inl h))
  | copyWeak src =>
      cases hsl : getSlot s.weaks src with
      | dead => simp [step, hsl]
      | live c =>
          simp only [step, hsl]
          rcases blkD_incrWeakCb s.blocks c b with h | h
          · exact Or.inl h
          · exact Or.inr (Or.inr (Or.inl h))
  | moveWeak src =>
      cases hsl : getSlot s.weaks src with
      | dead => simp [step, hsl]
      | live c => simp [step, hsl]
  | copyAssignWeak dst src =>
      cases hs1 : getSlot s.weaks src with
      | dead => simp [step, hs1]
      | live c =>
          cases hs2 : getSlot s.weaks dst with
          | dead => simp [step, hs1, hs2]
          | live d =>
              simp only [step, hs1, hs2]
              rcases blkD_releaseWeakCb (incrWeakCb s.blocks c) d b with h | h <;>
                rcases blkD_incrWeakCb s.blocks c b with h2 | h2 <;> rw [h2] at h
              · exact Or.inl h
              · exact Or.inr (Or.inr (Or.inl h))
              · exact Or.inr (Or.inr (Or.inr (Or.inr (Or.inl h))))
              · exact Or.inr (Or.inr (Or.inr (Or.inr (Or.inr (Or.inr h)))))
  | moveAssignWeak dst src =>
      cases hs1 : getSlot s.weaks src with
      | dead => simp [step, hs1]
      | live c =>
          cases hs2 : getSlot s.weaks dst with
          | dead => simp [step, hs1, hs2]
          | live d =>
              simp only [step, hs1, hs2]
              rcases blkD_releaseWeakCb (incrWeakCb s.blocks c) d b with h | h <;>
                rcases blkD_incrWeakCb s.blocks c b with h2 | h2 <;> rw [h2] at h
              · exact Or.inl h
              · exact Or.inr (Or.inr (Or.inl h))
              · exact Or.inr (Or.inr (Or.inr (Or.inr (Or.inl h))))
              · exact Or.inr (Or.inr (Or.inr (Or.inr (Or.inr (Or.inr h)))))
  | weakAssignFromStrong dst src =>
      cases hs1 : getSlot s.strongs src with
      | dead => simp [step, hs1]
      | live c =>
          cases hs2 : getSlot s.weaks dst with
          | dead => simp [step, hs1, hs2]
          | live d =>
              simp only [step, hs1, hs2]
              rcases blkD_releaseWeakCb (incrWeakCb s.blocks c) d b with h | h <;>
                rcases blkD_incrWeakCb s.blocks c b with h2 | h2 <;> rw [h2] at h
              · exact Or.inl h
              · exact Or.inr (Or.inr (Or.inl h))
              · exact Or.inr (Or.inr (Or.inr (Or.inr (Or.inl h))))
              · exact Or.inr (Or.inr (Or.inr (Or.inr (Or.inr (Or.inr h)))))
  | destroyWeak i =>
      cases hsl : getSlot s.weaks i with
      | dead => simp [step, hsl]
      | live d =>
          simp only [step, hsl]
          rcases blkD_releaseWeakCb s.blocks d b with h | h
          · exact Or.inl h
          · exact Or.inr (Or.inr (Or.inr (Or.inr (Or.inl h))))
  | lockWeak w =>
      cases hsl : getSlot s.weaks w with
      | dead => simp [step, hsl]
      | live c =>
          simp only [step, hsl]
          by_cases hg : cbUseCount s.blocks c ≠ 0
          · rw [if_pos hg]
            rcases blkD_incrStrongCb s.blocks c b with h | h
            · exact Or.inl h
            · exact Or.inr (Or.inl h)
          · rw [if_neg hg]
            exact Or.inl rfl

/-- One step never removes blocks from the heap. -/
theorem step_blocks_le (op : Op) (s : State) :
    s.blocks.length ≤ (step op s).blocks.length := by
  cases op with
  | newStrong => exact Nat.le_refl _
  | ptrCtorStrong p d a => simp [step]
  | allocSharedOp v a => simp [step]
  | makeSharedOp v => simp [step]
  | copyStrong src =>
      cases hsl : getSlot s.strongs src with
      | dead => simp [step, hsl]
      | live cb => simp [step, hsl, length_incrStrongCb]
  | moveStrong src =>
      cases hsl : getSlot s.strongs src with
      | dead => simp [step, hsl]
      | live cb => simp [step, hsl]
  | copyAssignStrong dst src =>
      cases hs1 : getSlot s.strongs src with
      | dead => simp [step, hs1]
      | live c =>
          cases hs2 : getSlot s.strongs dst with
          | dead => simp [step, hs1, hs2]
          | live d =>
              simp [step, hs1, hs2, length_releaseStrongCb, length_incrStrongCb]
  | moveAssignStrong dst src =>
      cases hs1 : getSlot s.strongs src with
      | dead => simp [step, hs1]
      | live c =>
          cases hs2 : getSlot s.strongs dst with
          | dead => simp [step, hs1, hs2]
          | live d => simp [step, hs1, hs2, length_releaseStrongCb]
  | resetStrong i =>
      cases hsl : getSlot s.strongs i with
      | dead => simp [step, hsl]
      | live d => simp [step, hsl, length_releaseStrongCb]
  | resetStrongPtr i p =>
      cases hsl : getSlot s.strongs i with
      | dead => simp [step, hsl]
      | live d => simp [step, hsl, length_releaseStrongCb]
  | destroyStrong i =>
      cases hsl : getSlot s.strongs i with
      | dead => simp [step, hsl]
      | live d => simp [step, hsl, length_releaseStrongCb]
  | swapStrong i j =>
      cases hs1 : getSlot s.strongs i with
      | dead => simp [step, hs1]
      | live ca =>
          cases hs2 : getSlot s.strongs j with
          | dead => simp [step, hs1, hs2]
          | live cb2 => simp [step, hs1, hs2]
  | newWeak => exact Nat.le_refl _
  | weakFromStrong src =>
      cases hsl : getSlot s.strongs src with
      | dead => simp [step, hsl]
      | live c => simp [step, hsl, length_incrWeakCb]
  | copyWeak src =>
      cases hsl : getSlot s.weaks src with
      | dead => simp [step, hsl]
      | live c => simp [step, hsl, length_incrWeakCb]
  | moveWeak src =>
      cases hsl : getSlot s.weaks src with
      | dead => simp [step, hsl]
      | live c => simp [step, hsl]
  | copyAssignWeak dst src =>
      cases hs1 : getSlot s.weaks src with
      | dead => simp [step, hs1]
      | live c =>
          cases hs2 : getSlot s.weaks dst with
          | dead => simp [step, hs1, hs2]
          | live d => simp [step, hs1, hs2, length_releaseWeakCb, length_incrWeakCb]
  | moveAssignWeak dst src =>
      cases hs1 : getSlot s.weaks src with
      | dead => simp [step, hs1]
      | live c =>
          cases hs2 : getSlot s.weaks dst with
          | dead => simp [step, hs1, hs2]
          | live d => simp [step, hs1, hs2, length_releaseWeakCb, length_incrWeakCb]
  | weakAssignFromStrong dst src =>
      cases hs1 : getSlot s.strongs src with
      | dead => simp [step, hs1]
      | live c =>
          cases hs2 : getSlot s.weaks dst with
          | dead => simp [step, hs1, hs2]
          | live d => simp [step, hs1, hs2, length_releaseWeakCb, length_incrWeakCb]
  | destroyWeak i =>
      cases hsl : getSlot s.weaks i with
      | dead => simp [step, hsl]
      | live d => simp [step, hsl, length_releaseWeakCb]
  | lockWeak w =>
      cases hsl : getSlot s.weaks w with
      | dead => simp [step, hsl]
      | live c =>
          by_cases hg : cbUseCount s.blocks c ≠ 0
          · simp [step, hsl, if_pos hg, length_incrStrongCb]
          · simp [step, hsl, if_neg hg]

/-! Further access helpers for the claim theorems. -/

theorem cbUseCount_eq_sc (blocks : List Block) (b : Nat) (h : b < blocks.length) :
    cbUseCount blocks (some b) = (blkD blocks b).shared_count := by
  simp only [cbUseCount]
  cases hj : blocks[b]? with
  | none =>
      have := List.getElem?_eq_none_iff.mp hj
      omega
  | some blk => rw [blkD, hj]; rfl

theorem cbGet_eq_blockGet (blocks : List Block) (b : Nat) (h : b < blocks.length) :
    cbGet blocks (some b) = blockGet b (blkD blocks b) := by
  simp only [cbGet]
  cases hj : blocks[b]? with
  | none =>
      have := List.getElem?_eq_none_iff.mp hj
      omega
  | some blk => rw [blkD, hj]; rfl

theorem blockGet_incr_sc (i : Nat) (blk : Block) (x : Nat) :
    blockGet i { blk with shared_count := x } = blockGet i blk := rfl

theorem blkD_releaseStrong_ne (blocks : List Block) (cb : Option Nat) (b : Nat)
    (hne : cb ≠ some b) : blkD (releaseStrongCb blocks cb) b = blkD blocks b := by
  cases cb with
  | none => rfl
  | some j =>
      cases hj : blocks[j]? with
      | none => simp only [releaseStrongCb, hj]
      | some blk =>
          have hjlen : j < blocks.length := (List.getElem?_eq_some.mp hj).1
          rw [releaseStrongCb_some blocks j hjlen]
          exact blkD_set_ne _ _ _ _ (fun hq => hne (by rw [hq]))

theorem incr_release_self (blocks : List Block) (j : Nat) (hj : j < blocks.length)
    (hsc : 1 ≤ (blkD blocks j).shared_count) :
    releaseStrongCb (incrStrongCb blocks (some j)) (some j) = blocks := by
  rw [incrStrongCb_some blocks j hj]
  rw [releaseStrongCb_some _ j (by rw [List.length_set]; exact hj)]
  rw [blkD_set_self _ _ _ hj]
  have hrel : releasedStrongBlock
      { blkD blocks j with shared_count := (blkD blocks j).shared_count + 1 }
      = blkD blocks j := by
    unfold releasedStrongBlock
    dsimp only
    rw [if_neg (by omega)]
    have hx : (blkD blocks j).shared_count + 1 - 1 = (blkD blocks j).shared_count := by
      omega
    rw [hx]
  rw [hrel, List.set_set, blkD_eq_getElem blocks j hj]
  exact set_self_of_lt blocks j hj

/-! The claims. -/

/-- C2: for every sequence of public operations and every live strong pointer
referencing a block, `use_count()` on that pointer equals the number of
currently-live strong pointers referencing that block. -/
theorem c2_use_count_eq_live_strongs (ops : List Op) (i b : Nat)
    (h : getSlot (run ops initState).strongs i = Slot.live (some b)) :
    useCountStrong (run ops initState) i = strongRefs (run ops initState) b := by
  have hInv := inv_reachable ops
  obtain ⟨hblen, _⟩ := strong_slot_facts _ _ _ hInv i b h
  unfold useCountStrong
  rw [h]
  show cbUseCount (run ops initState).blocks (some b) = strongRefs (run ops initState) b
  rw [strongRefs_eq, cbUseCount_eq_sc _ _ hblen]
  exact (hInv.2.2 b hblen).1

/-- C2 witness: `A = makeShared 42; B = A` gives `use_count() = 2` on `B`,
matching the two live strong pointers. -/
theorem c2_use_count_eq_live_strongs_witness :
    useCountStrong (run [Op.makeSharedOp 42, Op.copyStrong 0] initState) 1
      = strongRefs (run [Op.makeSharedOp 42, Op.copyStrong 0] initState) 0 :=
  c2_use_count_eq_live_strongs [Op.makeSharedOp 42, Op.copyStrong 0] 1 0 (by decide)

/-- C3 (the code at the failing input): when the managed object's constructor
throws inside `makeShared`/`allocateShared`, the failure propagates but the
just-allocated control-block chunk is not released (one chunk leaks), whereas
the successful path leaks nothing.  The claim requires the second component to
be 0 on the throwing path as well; the code has no try/catch around
`AllocTraits::construct`. -/
theorem c3_ctor_throw_leaks :
    (makeSharedEx true 0).1 = Except.error () ∧ (makeSharedEx true 0).2 = 1 ∧
      (makeSharedEx false 0).2 = 0 := ⟨rfl, rfl, rfl⟩

/-- C4 counterexample: constructing from raw pointer 5 with deleter 3 and a
stateful allocator tagged 7 records allocator tag 0 (a default-constructed
rebound allocator), not the given tag 7 — the claim that the given allocator
is recorded is false. -/
theorem c4_alloc_not_recorded_counterexample :
    (blkD (step (Op.ptrCtorStrong 5 3 7) initState).blocks 0).allocId = 0 ∧
      ¬((blkD (step (Op.ptrCtorStrong 5 3 7) initState).blocks 0).allocId = 7) := by
  decide

/-- C4 amended: constructing a strong pointer from a raw pointer with a
disposer and an allocator allocates an external-pointer block that records
the given disposer and a default-constructed allocator (the allocator
argument is unused), and sets `shared_count = 1`, `weak_count = 0`; the new
pointer references that block. -/
theorem c4_ptr_ctor_records (s : State) (p d a : Nat) :
    blkD (step (Op.ptrCtorStrong p d a) s).blocks s.blocks.length
      = ⟨1, 0, BlockKind.withoutMake p d, 0, 0, 0, []⟩ ∧
    getSlot (step (Op.ptrCtorStrong p d a) s).strongs s.strongs.length
      = Slot.live (some s.blocks.length) := by
  constructor
  · exact blkD_append_self s.blocks _
  · exact getSlot_concat_self s.strongs _

/-- C7: after any history in which an external-pointer block with stored
address `p` and deleter `d` has lost all its strong and weak references, that
block's deleter-invocation log is exactly one invocation with argument `p`
when `p` is non-null, and empty when `p` is null. -/
theorem c7_deleter_invoked_once (ops : List Op) (b p d : Nat)
    (hb : b < (run ops initState).blocks.length)
    (hk : (blkD (run ops initState).blocks b).kind = BlockKind.withoutMake p d)
    (hsc : scAt (run ops initState) b = 0)
    (hwc : wcAt (run ops initState) b = 0) :
    (blkD (run ops initState).blocks b).deleterLog
      = if p = 0 then [] else [(d, p)] := by
  have hInv := inv_reachable ops
  have h5 := (hInv.2.2 b hb).2.2.2.2 p d hk
  rw [h5]
  simp only [scAt] at hsc
  by_cases hp : p = 0
  · simp [hp]
  · simp [hp, hsc]

/-- C7 witness: construct from raw pointer 5 with deleter 3, destroy the only
strong pointer: the deleter has been invoked exactly once with 5. -/
theorem c7_deleter_invoked_once_witness :
    (blkD (run [Op.ptrCtorStrong 5 3 0, Op.destroyStrong 0] initState).blocks 0).deleterLog
      = if (5 : Nat) = 0 then [] else [(3, 5)] :=
  c7_deleter_invoked_once [Op.ptrCtorStrong 5 3 0, Op.destroyStrong 0] 0 5 3
    (by decide) (by decide) (by decide) (by decide)

/-- C8: `makeShared` (with the managed object's constructor producing value
`v`, the same value direct construction would produce) followed immediately by
`get()` on the returned pointer yields a non-null address, and the value
stored at that address is `v`. -/
theorem c8_make_shared_get (s : State) (v : Val) :
    getStrong (step (Op.makeSharedOp v) s) s.strongs.length ≠ 0 ∧
    readAddr (step (Op.makeSharedOp v) s).blocks
        (getStrong (step (Op.makeSharedOp v) s) s.strongs.length) = some v := by
  have h1 : getSlot (s.strongs ++ [Slot.live (some s.blocks.length)]) s.strongs.length
      = Slot.live (some s.blocks.length) := getSlot_concat_self _ _
  have h2 : (s.blocks ++ [(⟨1, 0, BlockKind.withMake v, 0, 0, 0, []⟩ : Block)])[s.blocks.length]?
      = some ⟨1, 0, BlockKind.withMake v, 0, 0, 0, []⟩ :=
    List.getElem?_concat_length _ _
  have hget : getStrong (step (Op.makeSharedOp v) s) s.strongs.length
      = s.blocks.length + 1 := by
    unfold getStrong
    rw [show (step (Op.makeSharedOp v) s).strongs
          = s.strongs ++ [Slot.live (some s.blocks.length)] from rfl, h1]
    simp only [cbGet]
    rw [show (step (Op.makeSharedOp v) s).blocks
          = s.blocks ++ [(⟨1, 0, BlockKind.withMake v, 0, 0, 0, []⟩ : Block)] from rfl, h2]
    rfl
  refine ⟨by rw [hget]; omega, ?_⟩
  rw [hget]
  simp only [readAddr]
  rw [show (step (Op.makeSharedOp v) s).blocks
        = s.blocks ++ [(⟨1, 0, BlockKind.withMake v, 0, 0, 0, []⟩ : Block)] from rfl, h2]

/-- C5: `lock()` on a live weak pointer.  When `use_count() = 0` the result is
an empty strong pointer and the state is otherwise untouched (all counts
unchanged).  When the weak pointer's block is not expired, a new strong
pointer referencing the same block is appended, that block's shared count
grows by exactly one, its weak count and every other block are unchanged,
and the new pointer's `get()` is the block's managed address. -/
theorem c5_lock_behavior (s : State) (w : Nat) (cb : Option Nat)
    (h : getSlot s.weaks w = Slot.live cb) :
    (useCountWeak s w = 0 →
      step (Op.lockWeak w) s = { s with strongs := s.strongs ++ [Slot.live none] }) ∧
    (∀ b, cb = some b → useCountWeak s w ≠ 0 →
      (step (Op.lockWeak w) s).strongs = s.strongs ++ [Slot.live (some b)] ∧
      (step (Op.lockWeak w) s).weaks = s.weaks ∧
      scAt (step (Op.lockWeak w) s) b = scAt s b + 1 ∧
      wcAt (step (Op.lockWeak w) s) b = wcAt s b ∧
      (∀ b', b' ≠ b → blkD (step (Op.lockWeak w) s).blocks b' = blkD s.blocks b') ∧
      getStrong (step (Op.lockWeak w) s) s.strongs.length = cbGet s.blocks (some b)) := by
  constructor
  · intro h0
    unfold useCountWeak at h0
    rw [h] at h0
    simp only [step, h]
    rw [if_neg (by simpa using h0)]
  · intro b hcb hne
    subst hcb
    unfold useCountWeak at hne
    rw [h] at hne
    obtain ⟨hblen, hbsc⟩ := cbUseCount_pos s.blocks b (by simpa using hne)
    simp only [step, h]
    rw [if_pos (by simpa using hne)]
    have hincr := incrStrongCb_some s.blocks b hblen
    refine ⟨rfl, rfl, ?_, ?_, ?_, ?_⟩
    · simp only [scAt]
      rw [hincr, blkD_set_self _ _ _ hblen]
    · simp only [wcAt]
      rw [hincr, blkD_set_self _ _ _ hblen]
    · intro b' hb'
      rw [hincr]
      exact blkD_set_ne _ _ _ _ (fun hq => hb' hq.symm)
    · have hlen2 : b < (incrStrongCb s.blocks (some b)).length := by
        rw [length_incrStrongCb]
        exact hblen
      unfold getStrong
      rw [getSlot_concat_self]
      show cbGet (incrStrongCb s.blocks (some b)) (some b) = cbGet s.blocks (some b)
      rw [cbGet_eq_blockGet _ _ hlen2, cbGet_eq_blockGet _ _ hblen,
          hincr, blkD_set_self _ _ _ hblen]
      exact blockGet_incr_sc b _ _

/-- C5 witness: lock a weak pointer while one strong pointer is alive — the
shared count goes from 1 to 2. -/
theorem c5_lock_behavior_witness :
    scAt (step (Op.lockWeak 0) (run [Op.makeSharedOp 9, Op.weakFromStrong 0] initState)) 0
      = scAt (run [Op.makeSharedOp 9, Op.weakFromStrong 0] initState) 0 + 1 :=
  ((c5_lock_behavior (run [Op.makeSharedOp 9, Op.weakFromStrong 0] initState) 0 (some 0)
      (by decide)).2 0 rfl (by decide)).2.2.1

/-- C6: move construction from a live strong pointer transfers the reference
to the new pointer without touching any block (all counts unchanged) and
leaves the source empty (`use_count() = 0`, `get()` null); move assignment
into a distinct live strong pointer that does not already reference the same
block transfers the reference, leaves the transferred block's record (both
counts included) unchanged, and empties the source. -/
theorem c6_move_transfers (s : State) (dst src b : Nat) (d0 : Option Nat)
    (hsrc : getSlot s.strongs src = Slot.live (some b))
    (hdst : getSlot s.strongs dst = Slot.live d0)
    (hne : dst ≠ src)
    (hdb : d0 ≠ some b) :
    ((step (Op.moveStrong src) s).blocks = s.blocks ∧
     (step (Op.moveStrong src) s).weaks = s.weaks ∧
     getSlot (step (Op.moveStrong src) s).strongs s.strongs.length
        = Slot.live (some b) ∧
     getSlot (step (Op.moveStrong src) s).strongs src = Slot.live none ∧
     useCountStrong (step (Op.moveStrong src) s) src = 0 ∧
     getStrong (step (Op.moveStrong src) s) src = 0) ∧
    (blkD (step (Op.moveAssignStrong dst src) s).blocks b = blkD s.blocks b ∧
     getSlot (step (Op.moveAssignStrong dst src) s).strongs dst
        = Slot.live (some b) ∧
     getSlot (step (Op.moveAssignStrong dst src) s).strongs src = Slot.live none ∧
     useCountStrong (step (Op.moveAssignStrong dst src) s) src = 0 ∧
     getStrong (step (Op.moveAssignStrong dst src) s) src = 0) := by
  have hsrclen : src < s.strongs.length := getSlot_lt_length _ _ _ hsrc
  have hdstlen : dst < s.strongs.length := getSlot_lt_length _ _ _ hdst
  have hsrcslot : getSlot ((s.strongs.set src (Slot.live none))
      ++ [Slot.live (some b)]) src = Slot.live none := by
    rw [getSlot_append_lt _ _ _ (by rw [List.length_set]; exact hsrclen)]
    exact getSlot_set_self _ _ _ hsrclen
  constructor
  · simp only [step, hsrc]
    refine ⟨by simp, by simp, ?_, hsrcslot, ?_, ?_⟩
    · have := getSlot_concat_self (s.strongs.set src (Slot.live none))
        (Slot.live (some b))
      rwa [List.length_set] at this
    · unfold useCountStrong
      rw [hsrcslot]
      rfl
    · unfold getStrong
      rw [hsrcslot]
      rfl
  · simp only [step, hsrc, hdst]
    have hdcb : getSlot (s.strongs.set src (Slot.live none)) dst = Slot.live d0 := by
      rw [getSlot_set_ne _ _ _ _ (fun hq => hne hq.symm)]
      exact hdst
    rw [hdcb]
    have hsrcslot2 : getSlot ((s.strongs.set src (Slot.live none)).set dst
        (Slot.live (some b))) src = Slot.live none := by
      rw [getSlot_set_ne _ _ _ _ hne]
      exact getSlot_set_self _ _ _ hsrclen
    refine ⟨?_, ?_, hsrcslot2, ?_, ?_⟩
    · exact blkD_releaseStrong_ne s.blocks d0 b hdb
    · rw [getSlot_set_self _ _ _ (by rw [List.length_set]; exact hdstlen)]
    · unfold useCountStrong
      rw [hsrcslot2]
      rfl
    · unfold getStrong
      rw [hsrcslot2]
      rfl

/-- C6 witness: with two strong pointers to two different blocks, move-assign
leaves the transferred block's record unchanged and empties the source. -/
theorem c6_move_transfers_witness :
    blkD (step (Op.moveAssignStrong 1 0)
        (run [Op.makeSharedOp 1, Op.makeSharedOp 2] initState)).blocks 0
      = blkD (run [Op.makeSharedOp 1, Op.makeSharedOp 2] initState).blocks 0 :=
  ((c6_move_transfers (run [Op.makeSharedOp 1, Op.makeSharedOp 2] initState) 1 0 0
      (some 1) (by decide) (by decide) (by decide) (by decide)).2).1

/-- C9: the weak pointer move-assignment operator computes exactly what the
copy-assignment operator computes (line 248 copies from the named rvalue
reference): afterwards the source still references its block, the destination
references the same block, and the block's weak count equals the number of
live weak pointers referencing it. -/
theorem c9_weak_move_assign_is_copy (ops : List Op) (w1 w2 b : Nat) (c2 : Option Nat)
    (h1 : getSlot (run ops initState).weaks w1 = Slot.live (some b))
    (h2 : getSlot (run ops initState).weaks w2 = Slot.live c2) :
    step (Op.moveAssignWeak w2 w1) (run ops initState)
      = step (Op.copyAssignWeak w2 w1) (run ops initState) ∧
    getSlot (step (Op.moveAssignWeak w2 w1) (run ops initState)).weaks w1
      = Slot.live (some b) ∧
    getSlot (step (Op.moveAssignWeak w2 w1) (run ops initState)).weaks w2
      = Slot.live (some b) ∧
    wcAt (step (Op.moveAssignWeak w2 w1) (run ops initState)) b
      = weakRefs (step (Op.moveAssignWeak w2 w1) (run ops initState)) b := by
  have hInv := inv_reachable ops
  have hInv' := inv_step (Op.moveAssignWeak w2 w1) (run ops initState) hInv
  obtain ⟨hblen, _⟩ := weak_slot_facts _ _ _ hInv w1 b h1
  have hw1len : w1 < (run ops initState).weaks.length := getSlot_lt_length _ _ _ h1
  have hw2len : w2 < (run ops initState).weaks.length := getSlot_lt_length _ _ _ h2
  refine ⟨rfl, ?_, ?_, ?_⟩
  · simp only [step, h1, h2]
    by_cases h12 : w1 = w2
    · subst h12
      rw [getSlot_set_self _ _ _ hw1len]
    · rw [getSlot_set_ne _ _ _ _ (fun hq => h12 hq.symm)]
      exact h1
  · simp only [step, h1, h2]
    rw [getSlot_set_self _ _ _ hw2len]
  · have hb' : b < (step (Op.moveAssignWeak w2 w1) (run ops initState)).blocks.length :=
      Nat.lt_of_lt_of_le hblen (step_blocks_le _ _)
    have := (hInv'.2.2 b hb').2.1
    rw [wcAt, weakRefs_eq]
    exact this

/-- C9 witness: two weak pointers to one block; move-assigning the first into
the second leaves the first still referencing the block, and the weak count
(2) equals the number of live weak pointers. -/
theorem c9_weak_move_assign_is_copy_witness :
    getSlot (step (Op.moveAssignWeak 1 0)
        (run [Op.makeSharedOp 5, Op.weakFromStrong 0, Op.weakFromStrong 0]
          initState)).weaks 0
      = Slot.live (some 0) :=
  (c9_weak_move_assign_is_copy
      [Op.makeSharedOp 5, Op.weakFromStrong 0, Op.weakFromStrong 0] 0 1 0 (some 0)
      (by decide) (by decide)).2.1

/-- C10: self-copy-assignment of a live strong pointer (empty or not) leaves
the whole state unchanged — in particular the pointer still references the
same block, `use_count()` is unchanged, and no `destroy()` or `deallocate()`
fires. -/
theorem c10_self_copy_assign (ops : List Op) (i : Nat) (cb : Option Nat)
    (h : getSlot (run ops initState).strongs i = Slot.live cb) :
    step (Op.copyAssignStrong i i) (run ops initState) = run ops initState ∧
    getSlot (step (Op.copyAssignStrong i i) (run ops initState)).strongs i
      = Slot.live cb ∧
    useCountStrong (step (Op.copyAssignStrong i i) (run ops initState)) i
      = useCountStrong (run ops initState) i ∧
    (∀ b, dcAt (step (Op.copyAssignStrong i i) (run ops initState)) b
      = dcAt (run ops initState) b) ∧
    (∀ b, dlAt (step (Op.copyAssignStrong i i) (run ops initState)) b
      = dlAt (run ops initState) b) := by
  have hInv := inv_reachable ops
  have heq : step (Op.copyAssignStrong i i) (run ops initState) = run ops initState := by
    simp only [step, h]
    have hst : (run ops initState).strongs.set i (Slot.live cb)
        = (run ops initState).strongs :=
      set_getD_self_eq _ i (Slot.live cb) Slot.dead h (by simp)
    have hbl : releaseStrongCb (incrStrongCb (run ops initState).blocks cb) cb
        = (run ops initState).blocks := by
      cases cb with
      | none => rfl
      | some j =>
          obtain ⟨hjlen, hjsc⟩ := strong_slot_facts _ _ _ hInv i j h
          exact incr_release_self _ j hjlen hjsc
    rw [hst, hbl]
  exact ⟨heq, by rw [heq]; exact h, by rw [heq], fun b => by rw [heq], fun b => by rw [heq]⟩

/-- C10 witness: self-assigning the only strong pointer of a block changes
nothing. -/
theorem c10_self_copy_assign_witness :
    step (Op.copyAssignStrong 0 0) (run [Op.makeSharedOp 7] initState)
      = run [Op.makeSharedOp 7] initState :=
  (c10_self_copy_assign [Op.makeSharedOp 7] 0 (some 0) (by decide)).1

/-- C1: over every sequence of public operations, for every allocated control
block: `destroy()` and `deallocate()` have each fired at most once, and on
any further operation `destroy()` fires exactly when that operation takes the
block's shared count from 1 to 0, while `deallocate()` fires exactly when the
operation takes one count to 0 with the other already 0 (equivalently, the
sum of both counts becomes 0). -/
theorem c1_destroy_dealloc_discipline (ops : List Op) (b : Nat)
    (hb : b < (run ops initState).blocks.length) :
    (dcAt (run ops initState) b ≤ 1 ∧ dlAt (run ops initState) b ≤ 1) ∧
    (∀ op : Op,
        dcAt (step op (run ops initState)) b
          = dcAt (run ops initState) b
            + (if scAt (run ops initState) b = 1
                  ∧ scAt (step op (run ops initState)) b = 0 then 1 else 0)) ∧
    (∀ op : Op,
        dlAt (step op (run ops initState)) b
          = dlAt (run ops initState) b
            + (if (scAt (run ops initState) b + wcAt (run ops initState) b ≠ 0)
                  ∧ scAt (step op (run ops initState)) b
                      + wcAt (step op (run ops initState)) b = 0
               then 1 else 0)) := by
  have hI := inv_reachable ops
  obtain ⟨h1, h2, h3, h4, h5⟩ := hI.2.2 b hb
  refine ⟨⟨?_, ?_⟩, ?_, ?_⟩
  · simp only [dcAt]
    rw [h3]
    split_ifs <;> omega
  · simp only [dlAt]
    rw [h4]
    split_ifs <;> omega
  · intro op
    have hI' := inv_step op (run ops initState) hI
    have hb' : b < (step op (run ops initState)).blocks.length :=
      Nat.lt_of_lt_of_le hb (step_blocks_le op (run ops initState))
    obtain ⟨h1', h2', h3', h4', h5'⟩ := hI'.2.2 b hb'
    simp only [dcAt, scAt]
    rcases blkD_step_cases op (run ops initState) b hb with hE | hE | hE | hE | hE | hE | hE <;>
      simp only [hE, releasedStrongBlock_sc, releasedStrongBlock_wc, releasedStrongBlock_dc,
        releasedStrongBlock_dl, releasedWeakBlock_sc, releasedWeakBlock_wc,
        releasedWeakBlock_dc, releasedWeakBlock_dl] at h3' h4' ⊢ <;>
      split_ifs at h3 h4 h3' h4' ⊢ <;> first | omega | simp_all
  · intro op
    have hI' := inv_step op (run ops initState) hI
    have hb' : b < (step op (run ops initState)).blocks.length :=
      Nat.lt_of_lt_of_le hb (step_blocks_le op (run ops initState))
    obtain ⟨h1', h2', h3', h4', h5'⟩ := hI'.2.2 b hb'
    simp only [dlAt, scAt, wcAt]
    rcases blkD_step_cases op (run ops initState) b hb with hE | hE | hE | hE | hE | hE | hE <;>
      simp only [hE, releasedStrongBlock_sc, releasedStrongBlock_wc, releasedStrongBlock_dc,
        releasedStrongBlock_dl, releasedWeakBlock_sc, releasedWeakBlock_wc,
        releasedWeakBlock_dc, releasedWeakBlock_dl] at h3' h4' ⊢ <;>
      split_ifs at h3 h4 h3' h4' ⊢ <;> first | omega | simp_all

/-- C1 witness: after `makeShared` plus one weak pointer, destroying the
strong pointer fires `destroy()` (shared count 1 to 0) but not
`deallocate()`; both calls have fired at most once. -/
theorem c1_destroy_dealloc_discipline_witness :
    dcAt (step (Op.destroyStrong 0)
        (run [Op.makeSharedOp 3, Op.weakFromStrong 0] initState)) 0
      = dcAt (run [Op.makeSharedOp 3, Op.weakFromStrong 0] initState) 0
        + (if scAt (run [Op.makeSharedOp 3, Op.weakFromStrong 0] initState) 0 = 1
              ∧ scAt (step (Op.destroyStrong 0)
                  (run [Op.makeSharedOp 3, Op.weakFromStrong 0] initState)) 0 = 0
           then 1 else 0) :=
  ((c1_destroy_dealloc_discipline [Op.makeSharedOp 3, Op.weakFromStrong 0] 0
      (by decide)).2.1) (Op.destroyStrong 0)

end SharedPtrSpec
